import Mathlib

/-!
# A shallow embedding of the gosmsg SMSG codec

This file embeds the Go package `gosmsg` (raw tag codec `smsg.go`, frame
reader, and the schema-driven serde `schema_serde.go`) into Lean and proves
the behavioural properties stated in the package's specification.

Conventions of the embedding:
* Go byte slices are `List Nat` (each element a byte value).
* Go `uint16` masking is rendered with `% 32768` (clear bit 15),
  `% 32768 + 32768` (set bit 15) and `32768 ≤ v` (test bit 15); these agree
  with the Go `&^`, `|` and `&` operations on the 16-bit values that occur.
* Go functions returning `(value, error)` become `Except`-valued functions,
  or pairs when Go returns both a value and an error together.
* Loops become fuel-based recursions, with the fuel chosen large enough that
  it is never exhausted on the stated inputs.
-/

namespace GoSMsg

/-- Errors of the gosmsg package, one constructor per Go error value that the
embedded functions can return: `EOS`, `io.ErrShortBuffer`, strconv syntax and
range errors, `ErrUnexpectedEnd` and the underlying `io.EOF`. -/
inductive GoErr where
  | eos
  | errShortBuffer
  | errSyntax
  | errRange
  | errUnexpectedEnd
  | ioEOF
  deriving DecidableEq, Repr

/-- Value of one hexadecimal digit byte as accepted by Go
`strconv.ParseUint(s, 16, _)` (decimal digits, upper and lower case letters). -/
def hexDigitVal (c : Nat) : Option Nat :=
  if 48 ≤ c ∧ c ≤ 57 then some (c - 48)
  else if 65 ≤ c ∧ c ≤ 70 then some (c - 55)
  else if 97 ≤ c ∧ c ≤ 102 then some (c - 87)
  else none

/-- `strconv.ParseUint(string(b), 16, 16)` applied to exactly four bytes, as
done on the tag field by `Iter.NextTag`.  Four hex digits always fit 16 bits,
so only the syntax error can occur; `none` stands for it. -/
def parseHex4 (s : List Nat) : Option Nat :=
  match s with
  | [a, b, c, d] =>
    (hexDigitVal a).bind fun va =>
    (hexDigitVal b).bind fun vb =>
    (hexDigitVal c).bind fun vc =>
    (hexDigitVal d).map fun vd => va * 4096 + vb * 256 + vc * 16 + vd
  | _ => none

/-- Value of a decimal digit byte. -/
def decDigitVal (c : Nat) : Option Nat :=
  if 48 ≤ c ∧ c ≤ 57 then some (c - 48) else none

/-- Big-endian accumulation of decimal digits; `none` on a non-digit byte. -/
def parseDecDigitsAux (s : List Nat) (acc : Nat) : Option Nat :=
  match s with
  | [] => some acc
  | c :: rest =>
    match decDigitVal c with
    | some d => parseDecDigitsAux rest (acc * 10 + d)
    | none => none

/-- Parse a byte list as an unsigned decimal number: nonempty, digits only. -/
def parseDecDigits (s : List Nat) : Option Nat :=
  match s with
  | [] => none
  | _ => parseDecDigitsAux s 0

/-- `strconv.ParseInt(string(s), 10, bits)`: optional `+`/`-` sign, then
decimal digits; syntax error on an empty or non-digit body; range error when
the value falls outside the signed `bits`-bit range (Go returns the clamped
value together with `ErrRange`, and every caller in this package treats that
as a plain error, so the clamped value is irrelevant). -/
def parseInt (bits : Nat) (s : List Nat) : Except GoErr Int :=
  match parseDecDigits (if s.head? = some 43 ∨ s.head? = some 45 then s.drop 1 else s) with
  | none => .error .errSyntax
  | some n =>
    if s.head? = some 45 then
      if (n : Int) > 2 ^ (bits - 1) then .error .errRange else .ok (-(n : Int))
    else
      if (n : Int) ≥ 2 ^ (bits - 1) then .error .errRange else .ok (n : Int)

/-- A Tag of an SMsg (`smsg.go` type `Tag`).  `Tag` is the 15-bit id with the
constructor bit stripped. -/
structure Tag where
  Tag : Nat
  Constructor : Bool
  VarLen : Bool
  Data : List Nat
  deriving DecidableEq, Repr

/-- The explicit-length arm of `NextTag` (smsg.go lines 410-430), entered
with the iterator bytes `rest` (already past the tag field) and the index
`dataStart` of the length separator space: parse the decimal length, reject a
negative one, check it against the remaining bytes (both the overflow-guard
comparison and the original one), then slice the data and advance. -/
def nextTagLen (id : Nat) (cons : Bool) (rest : List Nat) (dataStart : Nat) :
    Except GoErr (Tag × List Nat) :=
  match parseInt 32 (rest.take dataStart) with
  | .error e => .error e
  | .ok dataLen =>
    if dataLen < 0 then .error .errRange
    else if dataLen > (rest.length : Int) - dataStart - 1 then
      .error .errShortBuffer
    else if (dataStart : Int) + dataLen + 1 > (rest.length : Int) then
      .error .errShortBuffer
    else
      .ok ({ Tag := id, Constructor := cons, VarLen := false,
             Data := (rest.drop (dataStart + 1)).take dataLen.toNat },
           (rest.drop (dataStart + 1)).drop dataLen.toNat)

/-- The body of `NextTag` after the tag field has been parsed (smsg.go lines
400-436): the empty-buffer guard, then either the variable-length branch on a
leading space, or the scan for the length separator followed by
`nextTagLen`. -/
def nextTagBody (id : Nat) (cons : Bool) (rest : List Nat) :
    Except GoErr (Tag × List Nat) :=
  match rest with
  | [] => .error .errShortBuffer
  | b0 :: _ =>
    if b0 ≠ 32 then
      match rest.findIdx? (fun c => c == 32) with
      | none => .error .errShortBuffer
      | some dataStart => nextTagLen id cons rest dataStart
    else
      .ok ({ Tag := id, Constructor := cons, VarLen := true,
             Data := rest.drop 1 }, [])

/-- `Iter.NextTag` (smsg.go lines 386-439): parse one tag from the front of
the iterator bytes `d`, returning the tag together with the iterator's
remaining bytes.  The function is split into the stages above following the
Go control flow: the four-byte tag field with its `EOS` guard and hex parse,
then `nextTagBody` on the rest. -/
def NextTag (d : List Nat) : Except GoErr (Tag × List Nat) :=
  if d.length < 4 then .error .eos
  else
    match parseHex4 (d.take 4) with
    | none => .error .errSyntax
    | some raw => nextTagBody (raw % 32768) (decide (32768 ≤ raw)) (d.drop 4)

/-- Hex digit byte of a nibble, uppercase, as the `gHex` table in smsg.go. -/
def gHexDigit (n : Nat) : Nat := if n < 10 then 48 + n else 55 + n

/-- `appendHexTag`: the four uppercase hex digit bytes of a `uint16` value.
The Go nibble extraction `(v&0xf000)>>12` etc. is rendered with division and
modulo, which agree on 16-bit values. -/
def appendHexTag (v : Nat) : List Nat :=
  [gHexDigit (v / 4096 % 16), gHexDigit (v / 256 % 16),
   gHexDigit (v / 16 % 16), gHexDigit (v % 16)]

/-- Little-endian decimal digits of `n`, with explicit fuel (the fuel is
always sufficient when it is at least `n`). -/
def natDigitsAux : Nat → Nat → List Nat
  | 0, _ => []
  | fuel + 1, n => if n = 0 then [] else n % 10 :: natDigitsAux fuel (n / 10)

/-- The decimal byte string of a natural number, as produced by
`strconv.AppendInt` for a non-negative value. -/
def formatNat (n : Nat) : List Nat :=
  if n = 0 then [48] else ((natDigitsAux n n).reverse.map (· + 48))

/-- `strconv.FormatInt(v, 10)`. -/
def formatInt (v : Int) : List Nat :=
  if v < 0 then 45 :: formatNat (-v).toNat else formatNat v.toNat

/-- The variable-length sentinel `gVariableLen = -2` of smsg.go. -/
def gVariableLen : Int := -2

/-- `RawSMsg.addImpl`: the bytes this call appends to the message buffer
(tag hex field, optional decimal length, a space, then the data). -/
def addImpl (tag : Nat) (length : Int) (data : List Nat) : List Nat :=
  appendHexTag tag ++
    (if length = gVariableLen then [] else formatInt length) ++
    32 :: data

/-- `RawSMsg.Add`: append a tag with the constructor bit cleared
(`tag & ^gConstructor`, i.e. `% 32768` on the 16-bit value) and an explicit
length. -/
def Add (tag : Nat) (data : List Nat) : List Nat :=
  addImpl (tag % 32768) (data.length : Int) data

/-- `RawSMsg.AddVariableTag`: a variable-length tag with the constructor bit
set (`tag | gConstructor`). -/
def AddVariableTag (tag : Nat) : List Nat :=
  addImpl (tag % 32768 + 32768) gVariableLen []

/-- `RawSMsg.Terminate`: the terminator tag `0000` with length 0 whose data is
a single newline byte. -/
def Terminate : List Nat :=
  addImpl 0 0 [10]

/-- `bufio.Reader.ReadBytes('\n')` over a finite byte stream whose end is a
genuine end of stream: the bytes up to and including the first newline with
no error, or everything remaining together with `io.EOF` when no newline
follows.  Returns the read result and the rest of the stream. -/
def readBytesNewline (s : List Nat) : (List Nat × Option GoErr) × List Nat :=
  match s.findIdx? (fun c => c == 10) with
  | some i => ((s.take (i + 1), none), s.drop (i + 1))
  | none => ((s, some .ioEOF), [])

/-- The line-ending strip loop of `ReadRawSMsg`: `for _, b := range "\r\n"`
first compares the final byte against CR, then against LF, dropping on a
match each time. -/
def stripLineEnding (l : List Nat) : List Nat :=
  let l1 := if l ≠ [] ∧ l.getLast? = some 13 then l.dropLast else l
  if l1 ≠ [] ∧ l1.getLast? = some 10 then l1.dropLast else l1

/-- The body of `RawSMsgReader.ReadRawSMsg` (smsg.go lines 478-501) as a
function of the `ReadBytes` result: with data, strip line endings and clear a
simultaneous `io.EOF`; with no data, `nil` becomes `ErrUnexpectedEnd`,
`io.EOF` becomes `EOS`, and any other error passes through. -/
def readRawSMsgStep (l : List Nat) (err : Option GoErr) :
    List Nat × Option GoErr :=
  if l ≠ [] then
    (stripLineEnding l, if err = some .ioEOF then none else err)
  else if err = none then ([], some .errUnexpectedEnd)
  else if err = some .ioEOF then ([], some .eos)
  else ([], err)

/-- `ReadRawSMsg` over a finite stream: one `ReadBytes('\n')` followed by the
step above; returns the frame with its error, and the unread rest of the
stream. -/
def ReadRawSMsg (s : List Nat) : (List Nat × Option GoErr) × List Nat :=
  let r := readBytesNewline s
  (readRawSMsgStep r.1.1 r.1.2, r.2)

/-! ## UTF-8 (`strings.ToValidUTF8`, used by the string coercion) -/

/-- Lower bound Go's `utf8` accept table places on the second byte of a
multi-byte sequence starting with `c0`. -/
def utf8Lo2 (c0 : Nat) : Nat := if c0 = 224 then 160 else if c0 = 240 then 144 else 128

/-- Upper bound on the second byte of a multi-byte sequence starting with
`c0` (surrogates and values above U+10FFFF are excluded). -/
def utf8Hi2 (c0 : Nat) : Nat := if c0 = 237 then 159 else if c0 = 244 then 143 else 191

/-- Width of the valid UTF-8 sequence at the head of `s`, or `none` when the
head byte starts no valid sequence (Go `utf8.DecodeRune` returning
`RuneError` with width 1). -/
def utf8Width (s : List Nat) : Option Nat :=
  match s with
  | [] => none
  | c0 :: rest =>
    if c0 < 128 then some 1
    else if 194 ≤ c0 ∧ c0 ≤ 223 then
      match rest with
      | c1 :: _ => if 128 ≤ c1 ∧ c1 ≤ 191 then some 2 else none
      | [] => none
    else if 224 ≤ c0 ∧ c0 ≤ 239 then
      match rest with
      | c1 :: c2 :: _ =>
        if (utf8Lo2 c0 ≤ c1 ∧ c1 ≤ utf8Hi2 c0) ∧ (128 ≤ c2 ∧ c2 ≤ 191) then
          some 3
        else none
      | _ => none
    else if 240 ≤ c0 ∧ c0 ≤ 244 then
      match rest with
      | c1 :: c2 :: c3 :: _ =>
        if (utf8Lo2 c0 ≤ c1 ∧ c1 ≤ utf8Hi2 c0) ∧ (128 ≤ c2 ∧ c2 ≤ 191) ∧
            (128 ≤ c3 ∧ c3 ≤ 191) then
          some 4
        else none
      | _ => none
    else none

/-- The copy loop of `strings.ToValidUTF8(s, "?")`: valid sequences are copied
through, and each maximal run of invalid bytes is replaced by one `'?'` byte
(63); the `invalid` flag records whether the previous byte was part of such a
run.  Fuel-based; `s.length` steps always suffice. -/
def toValidUTF8Aux : Nat → List Nat → Bool → List Nat
  | 0, _, _ => []
  | fuel + 1, s, invalid =>
    match s with
    | [] => []
    | _ :: rest =>
      match utf8Width s with
      | some w => s.take w ++ toValidUTF8Aux fuel (s.drop w) false
      | none => (if invalid then [] else [63]) ++ toValidUTF8Aux fuel rest true

/-- `strings.ToValidUTF8(string(val), "?")`. -/
def toValidUTF8 (s : List Nat) : List Nat := toValidUTF8Aux s.length s false

/-! ## Schema model (schema.go, as used by the serde) -/

/-- The schema field data types of schema.go that this embedding models.
`FloatType` and `DoubleType`, whose Go decode/encode semantics is IEEE-754
parsing and shortest-representation formatting, are outside the model; the
timestamp, array and map types, like `RecordType`, are rejected by the
decoder's `newFieldData` (`default:` branch, "type conversion … is not
implemented") and are represented here by `RecordType` alone. -/
inductive DataType where
  | BoolType | Int8Type | Int16Type | Int32Type | Int64Type
  | StringType | BinaryType | EnumType | RecordType
  deriving DecidableEq, Repr

/-- The metadata keys of a field that the serde reads: the `smsg_tag` integer
(when present) and the `enum_values` string list. -/
structure Metadata where
  smsg_tag : Option Int
  enum_values : List (List Nat)
  deriving DecidableEq, Repr

/-- A schema field as the serde consumes it (name, type, nullable flag,
metadata).  The nested `ValueType`/`Fields` members of schema.go are not
consulted by the serde and are omitted. -/
structure Field where
  Name : String
  Typ : DataType
  Nullable : Bool
  Metadata : Metadata
  deriving DecidableEq, Repr

/-- A schema: its record-type descriptor field and the ordered field list
(the version is not consulted by the serde). -/
structure Schema where
  RecordType : Field
  Fields : List Field
  deriving DecidableEq, Repr

/-- Errors of the schema serde, one constructor per distinct Go error; the Go
texts are `fmt.Errorf` strings and only their identities matter here.
`panicOOB` records an out-of-bounds index access on which Go would panic
rather than return. -/
inductive SerdeErr where
  | schemaErr (msg : String)
  | missingSchema (tag : Nat)
  | iterErr (e : GoErr)
  | notNullable (name : String)
  | convErr (name : String)
  | panicOOB
  | noSchemaFor (name : String)
  | tagMismatch (msgTag schemaTag : Nat)
  | requiredNil (name : String)
  | requiredMissing (name : String)
  | typeMismatch (name : String)
  | invalidEnum (name : String)
  | notImplemented (name : String)
  deriving DecidableEq, Repr

/-- `extractSmsgTag`: read the `smsg_tag` metadata entry; the Go
`uint16(smsgTagInt)` conversion wraps modulo 2^16, rendered on `Int` with
`emod`. -/
def extractSmsgTag (f : Field) : Except String Nat :=
  match f.Metadata.smsg_tag with
  | none => .error (f.Name ++ " is missing smsg_tag metadata")
  | some i => .ok (i % 65536).toNat

/-- Go map assignment `m[k] = v` on an association list: replace the binding
if the key is present, else append (bindings stay in insertion order). -/
def mapAssign {K V : Type} [DecidableEq K] : List (K × V) → K → V → List (K × V)
  | [], k, v => [(k, v)]
  | (k', v') :: rest, k, v =>
    if k' = k then (k, v) :: rest else (k', v') :: mapAssign rest k v

/-- Go map lookup `m[k]`. -/
def mapFind {K V : Type} [DecidableEq K] : List (K × V) → K → Option V
  | [], _ => none
  | (k', v') :: rest, k => if k' = k then some v' else mapFind rest k

/-! ## Decoding (schema_serde.go) -/

/-- A decoded field value — the dynamic (`any`) values that the coercion
functions produce: sized integers, bool, Go strings, raw bytes, and the `nil`
stored for a missing nullable field. -/
inductive Value where
  | intV (bits : Nat) (v : Int)
  | boolV (b : Bool)
  | stringV (s : List Nat)
  | bytesV (bs : List Nat)
  | nullV
  deriving DecidableEq, Repr

/-- The decoded field map: field name to value, in insertion order. -/
abbrev Fields := List (String × Value)

/-- `DecodedMessage` (schema_serde.go). -/
structure DecodedMessage where
  RecordType : String
  RecordTag : Nat
  Fields : Fields
  deriving DecidableEq, Repr

/-- Pre-computed per-field conversion data (`fieldData`).  The Go structure
stores the coercion function itself; since `newFieldData` chooses it solely
by the field type, the embedding stores the type (`ftype`) and dispatches in
`applyCoerce`. -/
structure fieldData where
  isNullable : Bool
  isString : Bool
  smsgTag : Nat
  name : String
  enumValues : List (List Nat)
  ftype : DataType
  deriving DecidableEq, Repr

/-- Failure of a coercion function: an ordinary returned Go error, or a panic
(`coerceToBool` indexing an empty slice). -/
inductive CoerceFail where
  | err
  | panicked
  deriving DecidableEq, Repr

/-- The coercion functions `coerceToInt8` … `coerceToBytes` of
schema_serde.go, dispatched by field type exactly as `newFieldData` assigns
them.  `coerceToBool` reads `val[0]` unconditionally; on an empty value Go
would panic, recorded as `panicked`.  `RecordType` has no coercion function
(`newFieldData` rejects it), so that branch is unreachable from a built
decoder. -/
def applyCoerce (t : DataType) (enumValues : List (List Nat)) (val : List Nat) :
    Except CoerceFail Value :=
  match t with
  | .Int8Type =>
    match parseInt 8 val with
    | .ok v => .ok (.intV 8 v)
    | .error _ => .error .err
  | .Int16Type =>
    match parseInt 16 val with
    | .ok v => .ok (.intV 16 v)
    | .error _ => .error .err
  | .Int32Type =>
    match parseInt 32 val with
    | .ok v => .ok (.intV 32 v)
    | .error _ => .error .err
  | .Int64Type =>
    match parseInt 64 val with
    | .ok v => .ok (.intV 64 v)
    | .error _ => .error .err
  | .BoolType =>
    match val with
    | [] => .error .panicked
    | c :: _ => .ok (.boolV (decide (c ≠ 48)))
  | .StringType => .ok (.stringV (toValidUTF8 val))
  | .BinaryType => .ok (.bytesV val)
  | .EnumType =>
    if val ∈ enumValues then .ok (.stringV val) else .error .err
  | .RecordType => .error .err

/-- `newFieldData`: extract the wire tag and record the coercion data.  The
enum membership set is populated only for enum fields (Go builds `enumMap`
only in the `EnumType` case); `RecordType` falls to the `default:` branch,
"type conversion of %s is not implemented". -/
def newFieldData (f : Field) : Except SerdeErr fieldData :=
  match extractSmsgTag f with
  | .error e => .error (.schemaErr e)
  | .ok smsgTag =>
    match f.Typ with
    | .RecordType =>
      .error (.schemaErr ("type conversion of " ++ f.Name ++ " is not implemented"))
    | t =>
      .ok { isNullable := f.Nullable
            isString := decide (f.Typ = .StringType)
            smsgTag := smsgTag
            name := f.Name
            enumValues := if f.Typ = .EnumType then f.Metadata.enum_values else []
            ftype := t }

/-- The pre-computed conversion data of one schema (`schemaCoercion`). -/
structure schemaCoercion where
  recordTypeName : String
  recordTypeTag : Nat
  fields : List fieldData
  deriving DecidableEq, Repr

/-- The field loop of `newSchemaCoercion`, aborting at the first bad field. -/
def buildFieldData : List Field → Except SerdeErr (List fieldData)
  | [] => .ok []
  | f :: rest =>
    match newFieldData f with
    | .error e => .error e
    | .ok d =>
      match buildFieldData rest with
      | .error e => .error e
      | .ok ds => .ok (d :: ds)

/-- `newSchemaCoercion`. -/
def newSchemaCoercion (s : Schema) : Except SerdeErr schemaCoercion :=
  match extractSmsgTag s.RecordType with
  | .error e => .error (.schemaErr e)
  | .ok smsgTag =>
    match buildFieldData s.Fields with
    | .error e => .error e
    | .ok fields =>
      .ok { recordTypeName := s.RecordType.Name
            recordTypeTag := smsgTag
            fields := fields }

/-- `SchemaDecoder`: the record-tag-indexed coercion plans. -/
structure SchemaDecoder where
  coercers : List (Nat × schemaCoercion)
  deriving DecidableEq, Repr

/-- The schema loop of `NewSchemaDecoder`. -/
def buildCoercers : List Schema → List (Nat × schemaCoercion) →
    Except SerdeErr (List (Nat × schemaCoercion))
  | [], acc => .ok acc
  | s :: rest, acc =>
    match newSchemaCoercion s with
    | .error e => .error e
    | .ok c => buildCoercers rest (mapAssign acc c.recordTypeTag c)

/-- `NewSchemaDecoder`. -/
def NewSchemaDecoder (schemas : List Schema) : Except SerdeErr SchemaDecoder :=
  match buildCoercers schemas [] with
  | .error e => .error e
  | .ok coercers => .ok { coercers := coercers }

/-- The scratch map from wire tag id to raw bytes built by `Decode`'s scan. -/
abbrev TagMap := List (Nat × List Nat)

/-- The per-field loop of `SchemaDecoder.coerce` (schema_serde.go lines
221-246), in declaration order.  Returns the fields decoded so far together
with the first error, if any — Go returns the partially populated message
alongside the error.  A `panicOOB` marks a coercion on which Go would panic
instead of returning. -/
def coerceFields (tags : TagMap) : List fieldData → Fields → Fields × Option SerdeErr
  | [], acc => (acc, none)
  | fd :: rest, acc =>
    match mapFind tags fd.smsgTag with
    | none =>
      if fd.isNullable then coerceFields tags rest (mapAssign acc fd.name .nullV)
      else (acc, some (.notNullable fd.name))
    | some rawVal =>
      if rawVal.length = 0 then
        if fd.isString then coerceFields tags rest (mapAssign acc fd.name (.stringV []))
        else if fd.isNullable then coerceFields tags rest (mapAssign acc fd.name .nullV)
        else (acc, some (.notNullable fd.name))
      else
        match applyCoerce fd.ftype fd.enumValues rawVal with
        | .error .panicked => (acc, some .panicOOB)
        | .error .err => (acc, some (.convErr fd.name))
        | .ok v => coerceFields tags rest (mapAssign acc fd.name v)

/-- `SchemaDecoder.coerce` (schema_serde.go lines 208-249): look the record
tag up among the registered plans, then run the field loop.  Mirrors Go's
`(msg, err)` pair: no message only when no schema matched. -/
def coerce (s : SchemaDecoder) (recordTypeTag : Nat) (tags : TagMap) :
    Option DecodedMessage × Option SerdeErr :=
  match mapFind s.coercers recordTypeTag with
  | none => (none, some (.missingSchema recordTypeTag))
  | some sc =>
    let r := coerceFields tags sc.fields []
    (some { RecordType := sc.recordTypeName, RecordTag := recordTypeTag,
            Fields := r.1 }, r.2)

/-- The sibling-tag scan loop of `SchemaDecoder.Decode`: iterate `NextTag`
until `EOS`, stopping early at a terminator tag (`Tag = 0`); duplicate wire
tags keep the last value.  Fuel-based; `d.length` steps always suffice since
every successful `NextTag` consumes at least four bytes. -/
def collectTags : Nat → List Nat → TagMap → Except GoErr TagMap
  | 0, _, acc => .ok acc
  | fuel + 1, d, acc =>
    match NextTag d with
    | .error .eos => .ok acc
    | .error e => .error e
    | .ok (t, rest) =>
      if t.Tag = 0 then .ok acc
      else collectTags fuel rest (mapAssign acc t.Tag t.Data)

/-- `SchemaDecoder.Decode` (schema_serde.go lines 274-294): parse the frame's
outermost tag as the record tag, scan its sub-tags into the scratch map, then
coerce. -/
def Decode (s : SchemaDecoder) (r : List Nat) :
    Option DecodedMessage × Option SerdeErr :=
  match NextTag r with
  | .error e => (none, some (.iterErr e))
  | .ok (recordType, _) =>
    match collectTags recordType.Data.length recordType.Data [] with
    | .error e => (none, some (.iterErr e))
    | .ok tags => coerce s recordType.Tag tags

/-! ## Encoding (schema_serde.go) -/

/-- `SchemaEncoder`: schemas indexed by record type name. -/
structure SchemaEncoder where
  schemas : List (String × Schema)
  deriving DecidableEq, Repr

/-- The schema loop of `NewSchemaEncoder` (the Go nil-pointer check on
`RecordType` cannot arise in the embedding, where `RecordType` is a value). -/
def buildSchemaMap : List Schema → List (String × Schema) →
    Except SerdeErr (List (String × Schema))
  | [], acc => .ok acc
  | s :: rest, acc =>
    match extractSmsgTag s.RecordType with
    | .error e => .error (.schemaErr e)
    | .ok _ => buildSchemaMap rest (mapAssign acc s.RecordType.Name s)

/-- `NewSchemaEncoder`. -/
def NewSchemaEncoder (schemas : List Schema) : Except SerdeErr SchemaEncoder :=
  match buildSchemaMap schemas [] with
  | .error e => .error e
  | .ok m => .ok { schemas := m }

/-- `SchemaEncoder.encodeValue`: convert a typed value to wire bytes
according to the field schema.  `ok none` models Go's `(nil, nil)` skip
signal for a nil value in a nullable field; a value whose dynamic type does
not match the declared type is a hard error. -/
def encodeValue (field : Field) (value : Value) : Except SerdeErr (Option (List Nat)) :=
  match value with
  | .nullV =>
    if field.Nullable then .ok none
    else .error (.requiredNil field.Name)
  | _ =>
    match field.Typ with
    | .Int8Type =>
      match value with
      | .intV 8 v => .ok (some (formatInt v))
      | _ => .error (.typeMismatch field.Name)
    | .Int16Type =>
      match value with
      | .intV 16 v => .ok (some (formatInt v))
      | _ => .error (.typeMismatch field.Name)
    | .Int32Type =>
      match value with
      | .intV 32 v => .ok (some (formatInt v))
      | _ => .error (.typeMismatch field.Name)
    | .Int64Type =>
      match value with
      | .intV 64 v => .ok (some (formatInt v))
      | _ => .error (.typeMismatch field.Name)
    | .BoolType =>
      match value with
      | .boolV b => .ok (some (if b then [49] else [48]))
      | _ => .error (.typeMismatch field.Name)
    | .StringType =>
      match value with
      | .stringV s => .ok (some s)
      | _ => .error (.typeMismatch field.Name)
    | .BinaryType =>
      match value with
      | .bytesV bs => .ok (some bs)
      | _ => .error (.typeMismatch field.Name)
    | .EnumType =>
      match value with
      | .stringV s =>
        if s ∈ field.Metadata.enum_values then .ok (some s)
        else .error (.invalidEnum field.Name)
      | _ => .error (.typeMismatch field.Name)
    | .RecordType => .error (.notImplemented field.Name)

/-- The field loop of `SchemaEncoder.Encode` (schema_serde.go lines 518-550):
fields in schema order, appended to the inner message buffer via `Add`.
A missing or nil value in a non-nullable field is a hard error; in a nullable
field the tag is omitted entirely. -/
def encodeFields (msgFields : Fields) : List Field → List Nat →
    Except SerdeErr (List Nat)
  | [], inner => .ok inner
  | field :: rest, inner =>
    match mapFind msgFields field.Name with
    | none =>
      if field.Nullable then encodeFields msgFields rest inner
      else .error (.requiredMissing field.Name)
    | some .nullV =>
      if field.Nullable then encodeFields msgFields rest inner
      else .error (.requiredMissing field.Name)
    | some value =>
      match encodeValue field value with
      | .error e => .error e
      | .ok none => encodeFields msgFields rest inner
      | .ok (some data) =>
        match extractSmsgTag field with
        | .error e => .error (.schemaErr e)
        | .ok tag => encodeFields msgFields rest (inner ++ Add tag data)

/-- `SchemaEncoder.Encode` (schema_serde.go lines 497-559): look the schema
up by record type name, verify the record tag, encode the fields in schema
order, then wrap them in a variable-length constructor tag and terminate. -/
def Encode (e : SchemaEncoder) (msg : DecodedMessage) : Except SerdeErr (List Nat) :=
  match mapFind e.schemas msg.RecordType with
  | none => .error (.noSchemaFor msg.RecordType)
  | some schema =>
    match extractSmsgTag schema.RecordType with
    | .error er => .error (.schemaErr er)
    | .ok recordTag =>
      if recordTag ≠ msg.RecordTag then
        .error (.tagMismatch msg.RecordTag recordTag)
      else
        match encodeFields msg.Fields schema.Fields [] with
        | .error er => .error er
        | .ok inner => .ok (AddVariableTag msg.RecordTag ++ inner ++ Terminate)

/-! ## Lemmas: decimal and hexadecimal format/parse inverses -/

theorem natDigitsAux_eq_digits (fuel : Nat) :
    ∀ n, n ≤ fuel → natDigitsAux fuel n = Nat.digits 10 n := by
  induction fuel with
  | zero =>
    intro n h
    have : n = 0 := Nat.le_zero.mp h
    subst this
    simp [natDigitsAux]
  | succ fuel ih =>
    intro n h
    by_cases h0 : n = 0
    · subst h0; simp [natDigitsAux]
    · have hdiv : n / 10 < n := Nat.div_lt_self (Nat.pos_of_ne_zero h0) (by norm_num)
      have step : natDigitsAux (fuel + 1) n = n % 10 :: natDigitsAux fuel (n / 10) := by
        conv_lhs => rw [natDigitsAux]
        rw [if_neg h0]
      rw [step, ih (n / 10) (by omega),
        Nat.digits_def' (by norm_num : 1 < 10) (Nat.pos_of_ne_zero h0)]

theorem formatNat_eq_digits (n : Nat) (h : n ≠ 0) :
    formatNat n = (Nat.digits 10 n).reverse.map (· + 48) := by
  rw [formatNat, if_neg h, natDigitsAux_eq_digits n n le_rfl]

theorem formatNat_all_digits (n : Nat) : ∀ c ∈ formatNat n, 48 ≤ c ∧ c ≤ 57 := by
  intro c hc
  by_cases h : n = 0
  · subst h; simp [formatNat] at hc; omega
  · rw [formatNat_eq_digits n h] at hc
    simp only [List.mem_map, List.mem_reverse] at hc
    obtain ⟨d, hd, rfl⟩ := hc
    have := Nat.digits_lt_base (by norm_num : 1 < 10) hd
    omega

theorem formatNat_ne_nil (n : Nat) : formatNat n ≠ [] := by
  by_cases h : n = 0
  · subst h; simp [formatNat]
  · rw [formatNat_eq_digits n h]
    simp [Nat.digits_ne_nil_iff_ne_zero.mpr h]

theorem parseDecDigitsAux_all_digits (s : List Nat) :
    ∀ acc, (∀ c ∈ s, 48 ≤ c ∧ c ≤ 57) →
      parseDecDigitsAux s acc = some (s.foldl (fun a c => a * 10 + (c - 48)) acc) := by
  induction s with
  | nil => intro acc _; simp [parseDecDigitsAux]
  | cons c rest ih =>
    intro acc h
    have hc := h c (by simp)
    have hd : decDigitVal c = some (c - 48) := by
      unfold decDigitVal; rw [if_pos hc]
    have step : parseDecDigitsAux (c :: rest) acc =
        parseDecDigitsAux rest (acc * 10 + (c - 48)) := by
      conv_lhs => rw [parseDecDigitsAux, hd]
    rw [step, ih _ (fun x hx => h x (by simp [hx])), List.foldl_cons]

theorem foldl_digits_reverse (L : List Nat) (acc : Nat) :
    (L.reverse.map (· + 48)).foldl (fun a c => a * 10 + (c - 48)) acc
      = acc * 10 ^ L.length + Nat.ofDigits 10 L := by
  induction L generalizing acc with
  | nil => simp
  | cons d L ih =>
    simp only [List.reverse_cons, List.map_append, List.foldl_append, ih,
      List.map_cons, List.map_nil, List.foldl_cons, List.foldl_nil,
      Nat.ofDigits_cons, List.length_cons, Nat.add_sub_cancel]
    ring

theorem parseDecDigits_ne_nil (s : List Nat) (h : s ≠ []) :
    parseDecDigits s = parseDecDigitsAux s 0 := by
  cases s with
  | nil => exact absurd rfl h
  | cons c rest => rfl

theorem parseDecDigits_formatNat (n : Nat) : parseDecDigits (formatNat n) = some n := by
  rw [parseDecDigits_ne_nil _ (formatNat_ne_nil n),
    parseDecDigitsAux_all_digits _ _ (formatNat_all_digits n)]
  by_cases h : n = 0
  · subst h; simp [formatNat]
  · rw [formatNat_eq_digits n h, foldl_digits_reverse]
    simp [Nat.ofDigits_digits]

theorem formatNat_head_digit (n : Nat) :
    ∃ c rest, formatNat n = c :: rest ∧ 48 ≤ c ∧ c ≤ 57 := by
  rcases hf : formatNat n with _ | ⟨c, rest⟩
  · exact absurd hf (formatNat_ne_nil n)
  · exact ⟨c, rest, rfl, by
      have := formatNat_all_digits n c (by rw [hf]; simp)
      exact this.1, by
      have := formatNat_all_digits n c (by rw [hf]; simp)
      exact this.2⟩

theorem parseInt_eq_of_parse (bits : Nat) (s : List Nat) (n : Nat)
    (h : parseDecDigits
        (if s.head? = some 43 ∨ s.head? = some 45 then s.drop 1 else s) = some n) :
    parseInt bits s =
      (if s.head? = some 45 then
        if (n : Int) > 2 ^ (bits - 1) then .error .errRange else .ok (-(n : Int))
      else
        if (n : Int) ≥ 2 ^ (bits - 1) then .error .errRange else .ok (n : Int)) := by
  unfold parseInt
  rw [h]

theorem parseInt_of_digit_head (bits : Nat) (s : List Nat) (n : Nat)
    (hhead : ∃ c rest, s = c :: rest ∧ 48 ≤ c ∧ c ≤ 57)
    (hparse : parseDecDigits s = some n)
    (hlt : (n : Int) < 2 ^ (bits - 1)) :
    parseInt bits s = .ok (n : Int) := by
  obtain ⟨c, rest, rfl, hc1, hc2⟩ := hhead
  have hsign : ¬((c :: rest).head? = some 43 ∨ (c :: rest).head? = some 45) := by
    simp only [List.head?_cons, Option.some.injEq]
    omega
  have h45 : ¬((c :: rest).head? = some 45) := fun h' => hsign (Or.inr h')
  rw [parseInt_eq_of_parse bits _ n (by rw [if_neg hsign]; exact hparse),
    if_neg h45, if_neg (not_le.mpr hlt)]

theorem parseInt_formatNat (bits n : Nat) (h : (n : Int) < 2 ^ (bits - 1)) :
    parseInt bits (formatNat n) = .ok (n : Int) :=
  parseInt_of_digit_head bits _ n (formatNat_head_digit n) (parseDecDigits_formatNat n) h

theorem parseInt_neg_formatNat (bits n : Nat) (h : (n : Int) ≤ 2 ^ (bits - 1)) :
    parseInt bits (45 :: formatNat n) = .ok (-(n : Int)) := by
  have h45 : ((45 : Nat) :: formatNat n).head? = some 45 := rfl
  rw [parseInt_eq_of_parse bits _ n
      (by rw [if_pos (Or.inr h45)]; simpa using parseDecDigits_formatNat n),
    if_pos h45, if_neg (not_lt.mpr h)]

theorem parseInt_formatInt (bits : Nat) (v : Int)
    (h1 : -(2 ^ (bits - 1)) ≤ v) (h2 : v < 2 ^ (bits - 1)) :
    parseInt bits (formatInt v) = .ok v := by
  unfold formatInt
  by_cases hv : v < 0
  · rw [if_pos hv, parseInt_neg_formatNat bits (-v).toNat (by omega)]
    congr 1
    omega
  · rw [if_neg hv, parseInt_formatNat bits v.toNat (by omega)]
    congr 1
    omega

theorem hexDigitVal_gHexDigit (d : Nat) (h : d < 16) :
    hexDigitVal (gHexDigit d) = some d := by
  by_cases hd : d < 10
  · have hg : gHexDigit d = 48 + d := if_pos hd
    rw [hg]
    unfold hexDigitVal
    rw [if_pos (show 48 ≤ 48 + d ∧ 48 + d ≤ 57 by omega)]
    congr 1
    omega
  · have hg : gHexDigit d = 55 + d := if_neg hd
    rw [hg]
    unfold hexDigitVal
    rw [if_neg (show ¬(48 ≤ 55 + d ∧ 55 + d ≤ 57) by omega),
      if_pos (show 65 ≤ 55 + d ∧ 55 + d ≤ 70 by omega)]
    congr 1
    omega

theorem parseHex4_four (a b c d : Nat) :
    parseHex4 [a, b, c, d] =
      ((hexDigitVal a).bind fun va =>
       (hexDigitVal b).bind fun vb =>
       (hexDigitVal c).bind fun vc =>
       (hexDigitVal d).map fun vd => va * 4096 + vb * 256 + vc * 16 + vd) := rfl

theorem parseHex4_appendHexTag (v : Nat) (h : v < 65536) :
    parseHex4 (appendHexTag v) = some v := by
  unfold appendHexTag
  rw [parseHex4_four,
    hexDigitVal_gHexDigit _ (Nat.mod_lt _ (by norm_num)),
    hexDigitVal_gHexDigit _ (Nat.mod_lt _ (by norm_num)),
    hexDigitVal_gHexDigit _ (Nat.mod_lt _ (by norm_num)),
    hexDigitVal_gHexDigit _ (Nat.mod_lt _ (by norm_num))]
  simp only [Option.some_bind, Option.map_some', Option.some.injEq]
  omega

theorem gHexDigit_ne_space (d : Nat) : gHexDigit d ≠ 32 := by
  unfold gHexDigit
  by_cases hd : d < 10
  · rw [if_pos hd]; omega
  · rw [if_neg hd]; omega

theorem formatNat_no_space (n : Nat) : 32 ∉ formatNat n := by
  intro h
  have := formatNat_all_digits n 32 h
  omega

/-! ## Lemmas: `NextTag` inverts the writer operations -/

theorem findIdx?_append_first (A : List Nat) (b : Nat) (B : List Nat) (p : Nat → Bool)
    (hA : ∀ c ∈ A, p c = false) (hb : p b = true) :
    ∀ i, (A ++ b :: B).findIdx? p i = some (i + A.length) := by
  induction A with
  | nil =>
    intro i
    simp [List.findIdx?_cons, hb]
  | cons a A ih =>
    intro i
    rw [List.cons_append, List.findIdx?_cons, hA a (by simp)]
    simp only [Bool.false_eq_true, if_false]
    rw [ih (fun c hc => hA c (by simp [hc])) (i + 1)]
    congr 1
    simp only [List.length_cons]
    omega

theorem formatInt_natCast (n : Nat) : formatInt (n : Int) = formatNat n := by
  unfold formatInt
  rw [if_neg (show ¬((n : Int) < 0) by omega)]
  congr 1

theorem Add_eq (tag : Nat) (d : List Nat) :
    Add tag d = appendHexTag (tag % 32768) ++ (formatNat d.length ++ 32 :: d) := by
  unfold Add addImpl
  rw [if_neg (show ¬((d.length : Int) = gVariableLen) by unfold gVariableLen; omega),
    formatInt_natCast, List.append_assoc]

theorem AddVariableTag_eq (tag : Nat) :
    AddVariableTag tag = appendHexTag (tag % 32768 + 32768) ++ [32] := by
  unfold AddVariableTag addImpl
  rw [if_pos rfl]
  simp

theorem appendHexTag_length (v : Nat) : (appendHexTag v).length = 4 := rfl

theorem NextTag_hex_ok (d : List Nat) (raw : Nat)
    (h4 : ¬ d.length < 4) (hparse : parseHex4 (d.take 4) = some raw) :
    NextTag d = nextTagBody (raw % 32768) (decide (32768 ≤ raw)) (d.drop 4) := by
  unfold NextTag
  rw [if_neg h4, hparse]

theorem nextTagBody_cons_idx (id : Nat) (cons : Bool) (b0 : Nat) (tl : List Nat)
    (hb : b0 ≠ 32) (dataStart : Nat)
    (hidx : (b0 :: tl).findIdx? (fun c => c == 32) = some dataStart) :
    nextTagBody id cons (b0 :: tl) = nextTagLen id cons (b0 :: tl) dataStart := by
  rw [nextTagBody, if_pos hb, hidx]

theorem nextTagBody_cons_noidx (id : Nat) (cons : Bool) (b0 : Nat) (tl : List Nat)
    (hb : b0 ≠ 32) (hidx : (b0 :: tl).findIdx? (fun c => c == 32) = none) :
    nextTagBody id cons (b0 :: tl) = .error .errShortBuffer := by
  rw [nextTagBody, if_pos hb, hidx]

theorem nextTagLen_parsed (id : Nat) (cons : Bool) (rest : List Nat) (dataStart : Nat)
    (dataLen : Int) (hp : parseInt 32 (rest.take dataStart) = .ok dataLen) :
    nextTagLen id cons rest dataStart =
      (if dataLen < 0 then .error .errRange
      else if dataLen > (rest.length : Int) - dataStart - 1 then
        .error .errShortBuffer
      else if (dataStart : Int) + dataLen + 1 > (rest.length : Int) then
        .error .errShortBuffer
      else
        .ok ({ Tag := id, Constructor := cons, VarLen := false,
               Data := (rest.drop (dataStart + 1)).take dataLen.toNat },
             (rest.drop (dataStart + 1)).drop dataLen.toNat)) := by
  unfold nextTagLen
  rw [hp]

theorem nextTagLen_parse_err (id : Nat) (cons : Bool) (rest : List Nat)
    (dataStart : Nat) (e : GoErr) (hp : parseInt 32 (rest.take dataStart) = .error e) :
    nextTagLen id cons rest dataStart = .error e := by
  unfold nextTagLen
  rw [hp]

/-- Parsing the output of `Add`: for any payload below the int32 length
limit, `NextTag` recovers the masked tag id, a cleared constructor flag, and
exactly the payload bytes, leaving the following bytes in the iterator. -/
theorem NextTag_Add (tag : Nat) (d rest : List Nat) (hd : d.length < 2 ^ 31) :
    NextTag (Add tag d ++ rest) =
      .ok ({ Tag := tag % 32768, Constructor := false, VarLen := false,
             Data := d }, rest) := by
  rw [Add_eq, List.append_assoc]
  set F := formatNat d.length with hFdef
  have hassoc : (F ++ 32 :: d) ++ rest = F ++ 32 :: (d ++ rest) := by simp
  rw [hassoc]
  set A := appendHexTag (tag % 32768) with hAdef
  set R : List Nat := F ++ 32 :: (d ++ rest) with hRdef
  have hAlen : A.length = 4 := rfl
  have htake : (A ++ R).take 4 = A := List.take_left' hAlen
  have hdropA : (A ++ R).drop 4 = R := List.drop_left' hAlen
  have hlen4 : ¬ (A ++ R).length < 4 := by
    rw [List.length_append, hAlen]
    omega
  have hparse : parseHex4 ((A ++ R).take 4) = some (tag % 32768) := by
    rw [htake, hAdef]
    exact parseHex4_appendHexTag _ (by omega)
  rw [NextTag_hex_ok _ _ hlen4 hparse, hdropA]
  have hmod : tag % 32768 % 32768 = tag % 32768 := Nat.mod_mod_of_dvd _ dvd_rfl
  have hcons : decide (32768 ≤ tag % 32768) = false := by
    have := Nat.mod_lt tag (show 0 < 32768 by norm_num)
    simp only [decide_eq_false_iff_not]
    omega
  rw [hmod, hcons]
  obtain ⟨c, F', hFc, hc1, hc2⟩ := formatNat_head_digit d.length
  rw [← hFdef] at hFc
  have hRc : R = c :: (F' ++ 32 :: (d ++ rest)) := by rw [hRdef, hFc]; simp
  have hidx : R.findIdx? (fun x => x == 32) = some F.length := by
    rw [hRdef]
    have := findIdx?_append_first F 32 (d ++ rest) (fun x => x == 32)
      (fun x hx => by
        have := formatNat_all_digits d.length x (hFdef ▸ hx)
        simp only [beq_eq_false_iff_ne, ne_eq]
        omega)
      (by simp) 0
    simpa using this
  rw [hRc] at hidx
  rw [hRc, nextTagBody_cons_idx _ _ c _ (by omega) F.length hidx, ← hRc]
  have htakeF : R.take F.length = F := by
    rw [hRdef]
    exact List.take_left' rfl
  have hparseF : parseInt 32 (R.take F.length) = .ok (d.length : Int) := by
    rw [htakeF, hFdef]
    exact parseInt_formatNat 32 d.length (by push_cast; omega)
  rw [nextTagLen_parsed _ _ _ _ _ hparseF]
  have hRlen : R.length = F.length + 1 + (d.length + rest.length) := by
    rw [hRdef]
    simp only [List.length_append, List.length_cons]
    omega
  rw [if_neg (show ¬((d.length : Int) < 0) by omega),
    if_neg (show ¬((d.length : Int) > (R.length : Int) - F.length - 1) by
      rw [hRlen]; push_cast; omega),
    if_neg (show ¬((F.length : Int) + (d.length : Int) + 1 > (R.length : Int)) by
      rw [hRlen]; push_cast; omega)]
  have hdropF : R.drop (F.length + 1) = d ++ rest := by
    have : R = (F ++ [32]) ++ (d ++ rest) := by rw [hRdef]; simp
    rw [this]
    exact List.drop_left' (by simp)
  rw [hdropF]
  have htoNat : ((d.length : Int)).toNat = d.length := rfl
  rw [htoNat, List.take_left' rfl, List.drop_left' rfl]

/-- Parsing the output of `AddVariableTag`: `NextTag` yields a
variable-length constructor tag whose data is the whole remaining scope, and
exhausts the scope. -/
theorem NextTag_AddVariableTag (tag : Nat) (inner : List Nat) :
    NextTag (AddVariableTag tag ++ inner) =
      .ok ({ Tag := tag % 32768, Constructor := true, VarLen := true,
             Data := inner }, []) := by
  rw [AddVariableTag_eq]
  have hassoc : (appendHexTag (tag % 32768 + 32768) ++ [32]) ++ inner =
      appendHexTag (tag % 32768 + 32768) ++ 32 :: inner := by simp
  rw [hassoc]
  set A := appendHexTag (tag % 32768 + 32768) with hAdef
  have hAlen : A.length = 4 := rfl
  have hmod : tag % 32768 < 32768 := Nat.mod_lt tag (by norm_num)
  have hparse : parseHex4 ((A ++ 32 :: inner).take 4) = some (tag % 32768 + 32768) := by
    rw [List.take_left' hAlen, hAdef]
    exact parseHex4_appendHexTag _ (by omega)
  have hlen4 : ¬ (A ++ 32 :: inner).length < 4 := by
    rw [List.length_append, hAlen]
    omega
  rw [NextTag_hex_ok _ _ hlen4 hparse, List.drop_left' hAlen]
  have hid : (tag % 32768 + 32768) % 32768 = tag % 32768 := by omega
  have hcons : decide (32768 ≤ tag % 32768 + 32768) = true := by
    simp only [decide_eq_true_eq]
    omega
  rw [hid, hcons, nextTagBody, if_neg (show ¬((32 : Nat) ≠ 32) by omega)]
  simp

/-! ## Lemmas: the sibling-tag scan -/

theorem formatNat_length_pos (n : Nat) : 1 ≤ (formatNat n).length := by
  cases hf : formatNat n with
  | nil => exact absurd hf (formatNat_ne_nil n)
  | cons a l => simp

theorem Add_length (tag : Nat) (d : List Nat) :
    (Add tag d).length = 4 + (formatNat d.length).length + 1 + d.length := by
  rw [Add_eq]
  simp only [List.length_append, appendHexTag_length, List.length_cons]
  omega

/-- The byte encoding of a sequence of explicit-length sibling tags, in
order, as `RawSMsg.AddTags` produces for non-variable-length tags. -/
def addTagsBytes (ts : List (Nat × List Nat)) : List Nat :=
  ts.foldr (fun p acc => Add p.1 p.2 ++ acc) []

theorem collectTags_ok_step (fuel : Nat) (d : List Nat) (acc : TagMap) (t : Tag)
    (rest : List Nat) (h : NextTag d = .ok (t, rest)) :
    collectTags (fuel + 1) d acc =
      if t.Tag = 0 then .ok acc
      else collectTags fuel rest (mapAssign acc t.Tag t.Data) := by
  rw [collectTags, h]

theorem collectTags_eos_step (fuel : Nat) (d : List Nat) (acc : TagMap)
    (h : NextTag d = .error .eos) :
    collectTags (fuel + 1) d acc = .ok acc := by
  rw [collectTags, h]

theorem collectTags_err_step (fuel : Nat) (d : List Nat) (acc : TagMap) (e : GoErr)
    (h : NextTag d = .error e) (hne : e ≠ .eos) :
    collectTags (fuel + 1) d acc = .error e := by
  rw [collectTags, h]
  cases e
  · exact absurd rfl hne
  all_goals rfl

/-- Scanning an encoded tag sequence followed by a terminator tag: the scan
accumulates exactly the encoded tags (masked ids, last duplicate winning) and
stops at the terminator, whatever bytes follow it. -/
theorem collectTags_encoded (ts : List (Nat × List Nat)) :
    ∀ fuel junk acc, (∀ p ∈ ts, p.1 % 32768 ≠ 0 ∧ p.2.length < 2 ^ 31) →
      ts.length + 1 ≤ fuel →
      collectTags fuel (addTagsBytes ts ++ (Add 0 [] ++ junk)) acc =
        .ok (ts.foldl (fun m p => mapAssign m (p.1 % 32768) p.2) acc) := by
  induction ts with
  | nil =>
    intro fuel junk acc _ hfuel
    obtain ⟨f, rfl⟩ : ∃ f, fuel = f + 1 := ⟨fuel - 1, by omega⟩
    have hnil : addTagsBytes [] ++ (Add 0 [] ++ junk) = Add 0 [] ++ junk := by
      simp [addTagsBytes]
    have h0 := NextTag_Add 0 [] junk (by norm_num)
    simp only [Nat.zero_mod] at h0
    rw [hnil, collectTags_ok_step f _ acc _ _ h0, if_pos rfl]
    rfl
  | cons p ts ih =>
    intro fuel junk acc hts hfuel
    obtain ⟨f, rfl⟩ : ∃ f, fuel = f + 1 := ⟨fuel - 1, by omega⟩
    have hp := hts p (by simp)
    have hassoc : addTagsBytes (p :: ts) ++ (Add 0 [] ++ junk) =
        Add p.1 p.2 ++ (addTagsBytes ts ++ (Add 0 [] ++ junk)) := by
      simp [addTagsBytes]
    rw [hassoc, collectTags_ok_step f _ acc _ _ (NextTag_Add p.1 p.2 _ hp.2),
      if_neg hp.1,
      ih f junk _ (fun q hq => hts q (by simp [hq])) (by simp at hfuel ⊢; omega),
      List.foldl_cons]

theorem addTagsBytes_length_ge (ts : List (Nat × List Nat)) :
    ts.length ≤ (addTagsBytes ts).length := by
  induction ts with
  | nil => simp [addTagsBytes]
  | cons p ts ih =>
    have h6 : 6 ≤ (Add p.1 p.2).length := by
      rw [Add_length]
      have := formatNat_length_pos p.2.length
      omega
    simp only [addTagsBytes, List.foldr_cons, List.length_append, List.length_cons]
    simp only [addTagsBytes] at ih
    omega

/-- C8: while scanning sibling tags of a record scope during decode, the scan
stops at a terminator tag (id 0) even when further bytes remain in the scope:
for a scope holding encoded tags `ts`, a terminator, and arbitrary trailing
bytes `junk`, the collected map is exactly that of `ts` (masked ids, last
duplicate winning), independent of `junk`; the fuel is the scope length,
exactly as `Decode` invokes the scan. -/
theorem C8_scan_stops_at_terminator (ts : List (Nat × List Nat)) (junk : List Nat)
    (hts : ∀ p ∈ ts, p.1 % 32768 ≠ 0 ∧ p.2.length < 2 ^ 31) :
    collectTags (addTagsBytes ts ++ (Add 0 [] ++ junk)).length
        (addTagsBytes ts ++ (Add 0 [] ++ junk)) [] =
      .ok (ts.foldl (fun m p => mapAssign m (p.1 % 32768) p.2) []) := by
  apply collectTags_encoded ts _ junk [] hts
  have h1 := addTagsBytes_length_ge ts
  have h2 : (Add 0 ([] : List Nat)).length = 6 := rfl
  simp only [List.length_append, h2]
  omega

/-- C8 witness: a concrete scope with one real tag, a terminator, and a
complete well-formed tag after the terminator; the tag after the terminator
does not appear in the collected map. -/
theorem C8_scan_stops_at_terminator_witness :
    collectTags (addTagsBytes [(4128, [49, 50])] ++ (Add 0 [] ++ Add 48 [65])).length
        (addTagsBytes [(4128, [49, 50])] ++ (Add 0 [] ++ Add 48 [65])) [] =
      .ok [(4128, [49, 50])] :=
  C8_scan_stops_at_terminator [(4128, [49, 50])] (Add 48 [65]) (by decide)

/-- C4 counterexample: the claim predicts `Constructor = (tagId & 0x8000 ≠
0)` for the parse of `Add tagId d`; at `tagId = 0x8000` (bit 15 set, so the
claim predicts `true`) `Add` strips the bit before writing and the parse
yields `Constructor = false`. -/
theorem C4_add_keeps_constructor_counterexample :
    32768 &&& 32768 ≠ 0 ∧
    NextTag (Add 32768 []) =
      .ok ({ Tag := 0, Constructor := false, VarLen := false, Data := [] }, []) := by
  refine ⟨by decide, ?_⟩
  rfl

theorem and_32767_eq_mod (n : Nat) : n &&& 32767 = n % 32768 := by
  have h : (32767 : Nat) = 2 ^ 15 - 1 := by norm_num
  rw [h, Nat.and_pow_two_sub_one_eq_mod]

/-- C4 (amended): for every `tagId` in `[0, 0xFFFF]` and payload `d` shorter
than `2^31`, parsing the output of `Add tagId d` yields a tag with id `tagId
& 0x7FFF`, data `d`, and `Constructor = false` — `Add` clears the
constructor bit on the wire, so the parsed flag never reflects bit 15 of the
argument. -/
theorem C4_parse_of_add (tagId : Nat) (d : List Nat)
    (_h16 : tagId ≤ 65535) (hd : d.length < 2 ^ 31) :
    NextTag (Add tagId d) =
      .ok ({ Tag := tagId &&& 32767, Constructor := false, VarLen := false,
             Data := d }, []) := by
  rw [and_32767_eq_mod]
  simpa using NextTag_Add tagId d [] hd

/-- C4 witness: the amended theorem at `tagId = 0x8234`, payload "Hi". -/
theorem C4_parse_of_add_witness :
    (33332 : Nat) ≤ 65535 ∧ ([72, 105] : List Nat).length < 2 ^ 31 ∧
    NextTag (Add 33332 [72, 105]) =
      .ok ({ Tag := 33332 &&& 32767, Constructor := false, VarLen := false,
             Data := [72, 105] }, []) :=
  ⟨by decide, by decide, C4_parse_of_add 33332 [72, 105] (by decide) (by decide)⟩

/-! ## C1: the claimed length is validated against the remaining buffer -/

theorem findIdx?_some_bounds (p : Nat → Bool) (l : List Nat) :
    ∀ st i, l.findIdx? p st = some i → st ≤ i ∧ i < st + l.length := by
  induction l with
  | nil =>
    intro st i h
    simp [List.findIdx?] at h
  | cons a l ih =>
    intro st i h
    rw [List.findIdx?_cons] at h
    by_cases hp : p a = true
    · rw [if_pos hp] at h
      injection h with h
      subst h
      simp
    · rw [if_neg hp] at h
      have := ih (st + 1) i h
      simp only [List.length_cons]
      omega

/-- On every successful `NextTag`, the tag data and the advanced iterator
together form an in-bounds tail of the input buffer: `t.Data ++ rest =
d.drop k` for some `k` with `4 ≤ k ≤ |d|` and `k + |data| + |rest| =
|d|`. -/
theorem NextTag_ok_tail (d : List Nat) (t : Tag) (rest : List Nat)
    (h : NextTag d = .ok (t, rest)) :
    ∃ k, 4 ≤ k ∧ k ≤ d.length ∧ t.Data ++ rest = d.drop k ∧
      k + t.Data.length + rest.length = d.length := by
  by_cases h4 : d.length < 4
  · rw [NextTag, if_pos h4] at h
    exact absurd h (by simp)
  · cases hhex : parseHex4 (d.take 4) with
    | none =>
      rw [NextTag, if_neg h4, hhex] at h
      exact absurd h (by simp)
    | some raw =>
      rw [NextTag_hex_ok d raw h4 hhex] at h
      cases hdrop : d.drop 4 with
      | nil =>
        rw [hdrop, nextTagBody] at h
        exact absurd h (by simp)
      | cons b0 tl =>
        have hlen0 : (b0 :: tl).length = d.length - 4 := by
          rw [← hdrop, List.length_drop]
        rw [hdrop] at h
        by_cases hb0 : b0 ≠ 32
        · cases hidx : (b0 :: tl).findIdx? (fun c => c == 32) with
          | none =>
            rw [nextTagBody_cons_noidx _ _ _ _ hb0 hidx] at h
            exact absurd h (by simp)
          | some ds =>
            rw [nextTagBody_cons_idx _ _ _ _ hb0 _ hidx] at h
            cases hp : parseInt 32 ((b0 :: tl).take ds) with
            | error e =>
              rw [nextTagLen_parse_err _ _ _ _ _ hp] at h
              exact absurd h (by simp)
            | ok L =>
              rw [nextTagLen_parsed _ _ _ _ _ hp] at h
              have hds := findIdx?_some_bounds _ _ 0 ds hidx
              split_ifs at h with h1 h2 h3
              injection h with hpair
              injection hpair with ht hrest
              subst ht
              subst hrest
              obtain ⟨hds0, hds1⟩ := hds
              have happ : ((b0 :: tl).drop (ds + 1)).take L.toNat ++
                  ((b0 :: tl).drop (ds + 1)).drop L.toNat = d.drop (4 + (ds + 1)) := by
                rw [List.take_append_drop, ← hdrop, List.drop_drop]
              have hle : 4 + (ds + 1) ≤ d.length := by omega
              refine ⟨4 + (ds + 1), by omega, by omega, happ, ?_⟩
              have hlen1 := congrArg List.length happ
              simp only [List.length_append] at hlen1
              show 4 + (ds + 1) +
                  (((b0 :: tl).drop (ds + 1)).take L.toNat).length +
                  (((b0 :: tl).drop (ds + 1)).drop L.toNat).length = d.length
              rw [Nat.add_assoc, hlen1, List.length_drop]
              exact Nat.add_sub_cancel' hle
        · push_neg at hb0
          subst hb0
          rw [nextTagBody, if_neg (by omega : ¬((32 : Nat) ≠ 32))] at h
          injection h with hpair
          injection hpair with ht hrest
          subst ht
          subst hrest
          simp only [List.length_cons] at hlen0
          refine ⟨5, by omega, by omega, ?_, ?_⟩
          · show (32 :: tl).drop 1 ++ ([] : List Nat) = _
            rw [List.append_nil, ← hdrop, List.drop_drop]
          · show 5 + ((32 :: tl).drop 1).length + ([] : List Nat).length = d.length
            have hdd : ((32 : Nat) :: tl).drop 1 = tl := rfl
            rw [hdd]
            simp only [List.length_nil]
            omega

/-- The tag id a successful `NextTag` reports is always below `2^15`: it is
the parsed hex field reduced by the constructor-bit mask. -/
theorem NextTag_ok_tag_lt (d : List Nat) (t : Tag) (rest : List Nat)
    (h : NextTag d = .ok (t, rest)) : t.Tag < 32768 := by
  by_cases h4 : d.length < 4
  · rw [NextTag, if_pos h4] at h
    exact absurd h (by simp)
  · cases hhex : parseHex4 (d.take 4) with
    | none =>
      rw [NextTag, if_neg h4, hhex] at h
      exact absurd h (by simp)
    | some raw =>
      rw [NextTag_hex_ok d raw h4 hhex] at h
      have hm : raw % 32768 < 32768 := Nat.mod_lt raw (by norm_num)
      cases hdrop : d.drop 4 with
      | nil =>
        rw [hdrop, nextTagBody] at h
        exact absurd h (by simp)
      | cons b0 tl =>
        rw [hdrop] at h
        by_cases hb0 : b0 ≠ 32
        · cases hidx : (b0 :: tl).findIdx? (fun c => c == 32) with
          | none =>
            rw [nextTagBody_cons_noidx _ _ _ _ hb0 hidx] at h
            exact absurd h (by simp)
          | some ds =>
            rw [nextTagBody_cons_idx _ _ _ _ hb0 _ hidx] at h
            cases hp : parseInt 32 ((b0 :: tl).take ds) with
            | error e =>
              rw [nextTagLen_parse_err _ _ _ _ _ hp] at h
              exact absurd h (by simp)
            | ok L =>
              rw [nextTagLen_parsed _ _ _ _ _ hp] at h
              split_ifs at h
              injection h with hpair
              injection hpair with ht hrest
              rw [← ht]
              exact hm
        · push_neg at hb0
          subst hb0
          rw [nextTagBody, if_neg (by omega : ¬((32 : Nat) ≠ 32))] at h
          injection h with hpair
          injection hpair with ht hrest
          rw [← ht]
          exact hm

/-- C1: (a) whenever `NextTag` parses a claimed decimal length `L` that
exceeds the bytes remaining after the length field and its separating space,
it returns `io.ErrShortBuffer`; (b) on every successful parse, the tag data
and the advanced iterator together form an in-bounds tail of the input
buffer (`d.drop k` with `k + |data| + |rest| = |d|`), so every slice
`NextTag` takes lies within the buffer's bounds. -/
theorem C1_claimed_length_validated :
    (∀ (d : List Nat) (raw dataStart : Nat) (L : Int),
        ¬ d.length < 4 →
        parseHex4 (d.take 4) = some raw →
        (∃ b0 tl, d.drop 4 = b0 :: tl ∧ b0 ≠ 32) →
        (d.drop 4).findIdx? (fun c => c == 32) = some dataStart →
        parseInt 32 ((d.drop 4).take dataStart) = .ok L →
        L > ((d.drop 4).length : Int) - dataStart - 1 →
        NextTag d = .error .errShortBuffer) ∧
    (∀ (d : List Nat) (t : Tag) (rest : List Nat),
        NextTag d = .ok (t, rest) →
        ∃ k, 4 ≤ k ∧ k ≤ d.length ∧ t.Data ++ rest = d.drop k ∧
          k + t.Data.length + rest.length = d.length) := by
  constructor
  · intro d raw dataStart L h4 hhex hhead hidx hparse hexceed
    obtain ⟨b0, tl, hdrop, hb0⟩ := hhead
    rw [NextTag_hex_ok _ _ h4 hhex, hdrop]
    rw [hdrop] at hidx hparse hexceed
    rw [nextTagBody_cons_idx _ _ _ _ hb0 _ hidx,
      nextTagLen_parsed _ _ _ _ _ hparse]
    have hds := findIdx?_some_bounds _ _ 0 dataStart hidx
    have hL0 : (0 : Int) ≤ L := by
      have : (dataStart : Int) < ((b0 :: tl).length : Int) := by
        omega
      omega
    rw [if_neg (show ¬(L < 0) by omega), if_pos hexceed]
  · intro d t rest h
    exact NextTag_ok_tail d t rest h

/-- C1 witness: instantiating both parts — the truncated buffer
`"100110 abc"` (claimed length 10, three bytes remaining) yields
`io.ErrShortBuffer`, and a successful parse of `"10013 abc"` is an in-bounds
tail. -/
theorem C1_claimed_length_validated_witness :
    NextTag [49, 48, 48, 49, 49, 48, 32, 97, 98, 99] = .error .errShortBuffer ∧
    (∃ k, 4 ≤ k ∧ k ≤ ([49, 48, 48, 49, 51, 32, 97, 98, 99] : List Nat).length ∧
      [97, 98, 99] ++ [] = ([49, 48, 48, 49, 51, 32, 97, 98, 99] : List Nat).drop k ∧
      k + ([97, 98, 99] : List Nat).length + ([] : List Nat).length =
        ([49, 48, 48, 49, 51, 32, 97, 98, 99] : List Nat).length) := by
  constructor
  · exact C1_claimed_length_validated.1 [49, 48, 48, 49, 49, 48, 32, 97, 98, 99]
      4097 2 10 (by decide) (by rfl) ⟨49, [48, 32, 97, 98, 99], by rfl, by decide⟩
      (by rfl) (by rfl) (by decide)
  · refine C1_claimed_length_validated.2 [49, 48, 48, 49, 51, 32, 97, 98, 99]
      { Tag := 4097, Constructor := false, VarLen := false, Data := [97, 98, 99] }
      [] ?_
    rfl

/-! ## Lemmas: the decoder field loop -/

theorem coerceFields_cons_absent (tags : TagMap) (fd : fieldData)
    (rest : List fieldData) (acc : Fields)
    (h : mapFind tags fd.smsgTag = none) :
    coerceFields tags (fd :: rest) acc =
      (if fd.isNullable then coerceFields tags rest (mapAssign acc fd.name .nullV)
       else (acc, some (.notNullable fd.name))) := by
  rw [coerceFields, h]

theorem coerceFields_cons_found (tags : TagMap) (fd : fieldData)
    (rest : List fieldData) (acc : Fields) (rawVal : List Nat)
    (h : mapFind tags fd.smsgTag = some rawVal) :
    coerceFields tags (fd :: rest) acc =
      (if rawVal.length = 0 then
        if fd.isString then coerceFields tags rest (mapAssign acc fd.name (.stringV []))
        else if fd.isNullable then coerceFields tags rest (mapAssign acc fd.name .nullV)
        else (acc, some (.notNullable fd.name))
      else
        match applyCoerce fd.ftype fd.enumValues rawVal with
        | .error .panicked => (acc, some .panicOOB)
        | .error .err => (acc, some (.convErr fd.name))
        | .ok v => coerceFields tags rest (mapAssign acc fd.name v)) := by
  rw [coerceFields, h]

/-! ## C9: encode rejects a record tag that differs from the schema's -/

theorem Encode_eq_found (e : SchemaEncoder) (msg : DecodedMessage) (schema : Schema)
    (hfind : mapFind e.schemas msg.RecordType = some schema) :
    Encode e msg =
      (match extractSmsgTag schema.RecordType with
      | .error er => .error (.schemaErr er)
      | .ok recordTag =>
        if recordTag ≠ msg.RecordTag then
          .error (.tagMismatch msg.RecordTag recordTag)
        else
          match encodeFields msg.Fields schema.Fields [] with
          | .error er => .error er
          | .ok inner => .ok (AddVariableTag msg.RecordTag ++ inner ++ Terminate)) := by
  unfold Encode
  rw [hfind]

theorem Encode_eq_tagged (e : SchemaEncoder) (msg : DecodedMessage) (schema : Schema)
    (recordTag : Nat)
    (hfind : mapFind e.schemas msg.RecordType = some schema)
    (htag : extractSmsgTag schema.RecordType = .ok recordTag) :
    Encode e msg =
      (if recordTag ≠ msg.RecordTag then
        .error (.tagMismatch msg.RecordTag recordTag)
      else
        match encodeFields msg.Fields schema.Fields [] with
        | .error er => .error er
        | .ok inner => .ok (AddVariableTag msg.RecordTag ++ inner ++ Terminate)) := by
  rw [Encode_eq_found e msg schema hfind, htag]

/-- C9: when the message's record type name resolves to a schema whose
configured `smsg_tag` differs from the message's declared numeric record
tag, `SchemaEncoder.Encode` fails with the tag-mismatch error — it returns
no message. -/
theorem C9_record_tag_mismatch (e : SchemaEncoder) (msg : DecodedMessage)
    (schema : Schema) (recordTag : Nat)
    (hfind : mapFind e.schemas msg.RecordType = some schema)
    (htag : extractSmsgTag schema.RecordType = .ok recordTag)
    (hne : recordTag ≠ msg.RecordTag) :
    Encode e msg = .error (.tagMismatch msg.RecordTag recordTag) := by
  rw [Encode_eq_tagged e msg schema recordTag hfind htag, if_pos hne]

/-- The record-type field of the repository's serde test schema: "sip" with
tag 0x1019. -/
def sipRecordField : Field :=
  { Name := "sip", Typ := .RecordType, Nullable := false,
    Metadata := { smsg_tag := some 4121, enum_values := [] } }

/-- The `start_ts` field of the test schema. -/
def startTsField : Field :=
  { Name := "start_ts", Typ := .Int64Type, Nullable := false,
    Metadata := { smsg_tag := some 4128, enum_values := [] } }

/-- The `anr` field of the test schema. -/
def anrField : Field :=
  { Name := "anr", Typ := .StringType, Nullable := true,
    Metadata := { smsg_tag := some 4147, enum_values := [] } }

/-- The schema of the repository's serde tests: record type "sip" with tag
0x1019, a non-nullable int64 `start_ts` (tag 0x1020) and a nullable string
`anr` (tag 0x1033). -/
def sipSchema : Schema :=
  { RecordType := sipRecordField, Fields := [startTsField, anrField] }

/-- C9 witness: encoding a "sip" message that declares record tag 0x9999
against the sip schema (tag 0x1019) fails with the mismatch error. -/
theorem C9_record_tag_mismatch_witness :
    Encode { schemas := [("sip", sipSchema)] }
        { RecordType := "sip", RecordTag := 39321, Fields := [] } =
      .error (.tagMismatch 39321 4121) :=
  C9_record_tag_mismatch { schemas := [("sip", sipSchema)] }
    { RecordType := "sip", RecordTag := 39321, Fields := [] }
    sipSchema 4121 rfl rfl (by decide)

/-! ## C3: the nullability matrix -/

/-- C3: the decoder's per-field outcome follows the nullability matrix: with
the field loop at field `fd`, (1) wire tag absent and field nullable gives a
null binding; (2) absent and non-nullable stops with an error; (3) present
with zero-length data and a string-typed field gives the empty string,
regardless of nullability; (4) present zero-length, non-string, nullable
gives null; (5) present zero-length, non-string, non-nullable stops with an
error; (6) present non-empty applies the field type's coercion, binding its
value on success and stopping with a conversion error on failure. -/
theorem C3_nullability_matrix (tags : TagMap) (fd : fieldData)
    (rest : List fieldData) (acc : Fields) :
    (mapFind tags fd.smsgTag = none → fd.isNullable = true →
      coerceFields tags (fd :: rest) acc =
        coerceFields tags rest (mapAssign acc fd.name .nullV)) ∧
    (mapFind tags fd.smsgTag = none → fd.isNullable = false →
      coerceFields tags (fd :: rest) acc = (acc, some (.notNullable fd.name))) ∧
    (∀ rawVal, mapFind tags fd.smsgTag = some rawVal → rawVal.length = 0 →
      fd.isString = true →
      coerceFields tags (fd :: rest) acc =
        coerceFields tags rest (mapAssign acc fd.name (.stringV []))) ∧
    (∀ rawVal, mapFind tags fd.smsgTag = some rawVal → rawVal.length = 0 →
      fd.isString = false → fd.isNullable = true →
      coerceFields tags (fd :: rest) acc =
        coerceFields tags rest (mapAssign acc fd.name .nullV)) ∧
    (∀ rawVal, mapFind tags fd.smsgTag = some rawVal → rawVal.length = 0 →
      fd.isString = false → fd.isNullable = false →
      coerceFields tags (fd :: rest) acc = (acc, some (.notNullable fd.name))) ∧
    (∀ rawVal, mapFind tags fd.smsgTag = some rawVal → rawVal.length ≠ 0 →
      coerceFields tags (fd :: rest) acc =
        (match applyCoerce fd.ftype fd.enumValues rawVal with
        | .error .panicked => (acc, some .panicOOB)
        | .error .err => (acc, some (.convErr fd.name))
        | .ok v => coerceFields tags rest (mapAssign acc fd.name v))) := by
  refine ⟨?_, ?_, ?_, ?_, ?_, ?_⟩
  · intro h hn
    rw [coerceFields_cons_absent tags fd rest acc h, if_pos hn]
  · intro h hn
    rw [coerceFields_cons_absent tags fd rest acc h, hn]
    simp only [Bool.false_eq_true, if_false]
  · intro rawVal h h0 hs
    rw [coerceFields_cons_found tags fd rest acc rawVal h, if_pos h0, if_pos hs]
  · intro rawVal h h0 hs hn
    rw [coerceFields_cons_found tags fd rest acc rawVal h, if_pos h0, hs, hn]
    simp only [Bool.false_eq_true, if_false, if_true]
  · intro rawVal h h0 hs hn
    rw [coerceFields_cons_found tags fd rest acc rawVal h, if_pos h0, hs, hn]
    simp only [Bool.false_eq_true, if_false]
  · intro rawVal h h0
    rw [coerceFields_cons_found tags fd rest acc rawVal h, if_neg h0]

/-- An int64-typed conversion-data fixture for the witnesses. -/
def fdInt (nullable : Bool) : fieldData :=
  { isNullable := nullable, isString := false, smsgTag := 7,
    name := "a", enumValues := [], ftype := .Int64Type }

/-- A string-typed conversion-data fixture for the witnesses. -/
def fdStr : fieldData :=
  { isNullable := false, isString := true, smsgTag := 7,
    name := "a", enumValues := [], ftype := .StringType }

/-- C3 witness: all six matrix branches at concrete fields and inputs. -/
theorem C3_nullability_matrix_witness :
    (coerceFields [] [fdInt true] [] =
      coerceFields [] [] (mapAssign [] "a" .nullV)) ∧
    (coerceFields [] [fdInt false] [] = ([], some (.notNullable "a"))) ∧
    (coerceFields [(7, [])] [fdStr] [] =
      coerceFields [(7, [])] [] (mapAssign [] "a" (.stringV []))) ∧
    (coerceFields [(7, [])] [fdInt true] [] =
      coerceFields [(7, [])] [] (mapAssign [] "a" .nullV)) ∧
    (coerceFields [(7, [])] [fdInt false] [] = ([], some (.notNullable "a"))) ∧
    (coerceFields [(7, [53])] [fdInt false] [] =
      (match applyCoerce (fdInt false).ftype (fdInt false).enumValues [53] with
      | .error .panicked => ([], some .panicOOB)
      | .error .err => ([], some (.convErr "a"))
      | .ok v => coerceFields [(7, [53])] [] (mapAssign [] "a" v))) := by
  refine ⟨?_, ?_, ?_, ?_, ?_, ?_⟩
  · exact (C3_nullability_matrix [] (fdInt true) [] []).1 rfl rfl
  · exact (C3_nullability_matrix [] (fdInt false) [] []).2.1 rfl rfl
  · exact (C3_nullability_matrix [(7, [])] fdStr [] []).2.2.1 [] rfl rfl rfl
  · exact (C3_nullability_matrix [(7, [])] (fdInt true) [] []).2.2.2.1 [] rfl rfl
      rfl rfl
  · exact (C3_nullability_matrix [(7, [])] (fdInt false) [] []).2.2.2.2.1 [] rfl
      rfl rfl rfl
  · exact (C3_nullability_matrix [(7, [53])] (fdInt false) [] []).2.2.2.2.2 [53]
      rfl (by decide)

/-! ## C7: partial decode on a missing non-nullable field -/

/-- C7: when the wire tag of a non-nullable field `fd` is absent, the field
loop fails at `fd` and returns, together with the not-nullable error, exactly
the fields resolved before the failure — the result of processing the
preceding fields `pre` in declaration order — and nothing from the fields
after it. -/
theorem C7_partial_decode (tags : TagMap) (pre : List fieldData) (fd : fieldData)
    (post : List fieldData) (acc : Fields)
    (hpre : (coerceFields tags pre acc).2 = none)
    (habs : mapFind tags fd.smsgTag = none)
    (hnn : fd.isNullable = false) :
    coerceFields tags (pre ++ fd :: post) acc =
      ((coerceFields tags pre acc).1, some (.notNullable fd.name)) := by
  induction pre generalizing acc with
  | nil =>
    rw [List.nil_append, coerceFields_cons_absent tags fd post acc habs, hnn]
    simp only [Bool.false_eq_true, if_false]
    rfl
  | cons g pre ih =>
    rw [List.cons_append]
    cases hg : mapFind tags g.smsgTag with
    | none =>
      cases hn : g.isNullable with
      | false =>
        rw [coerceFields_cons_absent tags g pre acc hg, hn] at hpre
        simp at hpre
      | true =>
        rw [coerceFields_cons_absent tags g (pre ++ fd :: post) acc hg, hn,
          if_pos rfl]
        rw [coerceFields_cons_absent tags g pre acc hg, hn, if_pos rfl] at hpre ⊢
        exact ih _ hpre
    | some rawVal =>
      by_cases h0 : rawVal.length = 0
      · by_cases hs : g.isString = true
        · rw [coerceFields_cons_found tags g (pre ++ fd :: post) acc rawVal hg,
            if_pos h0, if_pos hs]
          rw [coerceFields_cons_found tags g pre acc rawVal hg, if_pos h0,
            if_pos hs] at hpre ⊢
          exact ih _ hpre
        · cases hn : g.isNullable with
          | false =>
            rw [coerceFields_cons_found tags g pre acc rawVal hg, if_pos h0,
              if_neg hs, hn] at hpre
            simp at hpre
          | true =>
            rw [coerceFields_cons_found tags g (pre ++ fd :: post) acc rawVal hg,
              if_pos h0, if_neg hs, hn, if_pos rfl]
            rw [coerceFields_cons_found tags g pre acc rawVal hg, if_pos h0,
              if_neg hs, hn, if_pos rfl] at hpre ⊢
            exact ih _ hpre
      · cases hc : applyCoerce g.ftype g.enumValues rawVal with
        | error e =>
          rw [coerceFields_cons_found tags g pre acc rawVal hg, if_neg h0, hc] at hpre
          cases e <;> simp at hpre
        | ok v =>
          rw [coerceFields_cons_found tags g (pre ++ fd :: post) acc rawVal hg,
            if_neg h0, hc]
          rw [coerceFields_cons_found tags g pre acc rawVal hg, if_neg h0, hc] at hpre ⊢
          exact ih _ hpre

/-- The pre-computed conversion data of `start_ts`, as `newFieldData` builds
it. -/
def startTsFD : fieldData :=
  { isNullable := false, isString := false, smsgTag := 4128,
    name := "start_ts", enumValues := [], ftype := .Int64Type }

/-- The pre-computed conversion data of `anr`, as `newFieldData` builds it. -/
def anrFD : fieldData :=
  { isNullable := true, isString := true, smsgTag := 4147,
    name := "anr", enumValues := [], ftype := .StringType }

/-- C7 witness: the sip plan against a frame map holding only the nullable
`anr` tag — the loop fails at `start_ts`; with `start_ts` first in schema
order nothing precedes it, and the partial result is exactly the empty
run's fields. -/
theorem C7_partial_decode_witness :
    coerceFields [(4147, [57])] ([] ++ startTsFD :: [anrFD]) [] =
      ((coerceFields [(4147, [57])] [] []).1, some (.notNullable "start_ts")) :=
  C7_partial_decode [(4147, [57])] [] startTsFD [anrFD] [] rfl rfl rfl

/-! ## C10: the boolean coercion never reads out of bounds -/

theorem applyCoerce_no_panic (t : DataType) (env : List (List Nat))
    (val : List Nat) (hv : val ≠ []) :
    applyCoerce t env val ≠ .error .panicked := by
  cases t <;> simp only [applyCoerce]
  case BoolType =>
    cases val with
    | nil => exact absurd rfl hv
    | cons c cs => simp
  case Int8Type =>
    cases parseInt 8 val <;> simp
  case Int16Type =>
    cases parseInt 16 val <;> simp
  case Int32Type =>
    cases parseInt 32 val <;> simp
  case Int64Type =>
    cases parseInt 64 val <;> simp
  case StringType => simp
  case BinaryType => simp
  case EnumType =>
    by_cases h : val ∈ env <;> simp [h]
  case RecordType => simp

theorem coerceFields_no_panic (tags : TagMap) (fields : List fieldData) :
    ∀ acc, (coerceFields tags fields acc).2 ≠ some .panicOOB := by
  induction fields with
  | nil =>
    intro acc
    simp [coerceFields]
  | cons fd rest ih =>
    intro acc
    cases hg : mapFind tags fd.smsgTag with
    | none =>
      rw [coerceFields_cons_absent tags fd rest acc hg]
      cases hn : fd.isNullable with
      | false => simp
      | true =>
        simp only [if_true]
        exact ih _
    | some rawVal =>
      rw [coerceFields_cons_found tags fd rest acc rawVal hg]
      by_cases h0 : rawVal.length = 0
      · rw [if_pos h0]
        by_cases hs : fd.isString = true
        · rw [if_pos hs]
          exact ih _
        · rw [if_neg hs]
          cases hn : fd.isNullable with
          | false => simp
          | true =>
            simp only [if_true]
            exact ih _
      · rw [if_neg h0]
        cases hc : applyCoerce fd.ftype fd.enumValues rawVal with
        | error e =>
          cases e with
          | panicked =>
            exact absurd hc (applyCoerce_no_panic fd.ftype fd.enumValues rawVal
              (by intro hnil; exact h0 (by rw [hnil]; rfl)))
          | err => simp
        | ok v =>
          simp only []
          exact ih _

/-- C10: the boolean coercion is only ever reached with a non-empty value —
the decoder's missing/empty branch handles zero-length data first — so its
access to the value's first byte is in bounds: a non-empty value never
produces the would-panic outcome, and `Decode` never returns the
out-of-bounds marker for any decoder and any input. -/
theorem C10_bool_coercion_in_bounds :
    (∀ (t : DataType) (env : List (List Nat)) (val : List Nat),
        val ≠ [] → applyCoerce t env val ≠ .error .panicked) ∧
    (∀ (s : SchemaDecoder) (r : List Nat), (Decode s r).2 ≠ some .panicOOB) := by
  constructor
  · exact applyCoerce_no_panic
  · intro s r
    unfold Decode
    cases hN : NextTag r with
    | error e => simp
    | ok p =>
      obtain ⟨rt, it⟩ := p
      show (match collectTags rt.Data.length rt.Data [] with
        | .error e => ((none : Option DecodedMessage), some (SerdeErr.iterErr e))
        | .ok tags => coerce s rt.Tag tags).2 ≠ some .panicOOB
      cases hC : collectTags rt.Data.length rt.Data [] with
      | error e => simp
      | ok tags =>
        show (coerce s rt.Tag tags).2 ≠ some .panicOOB
        unfold coerce
        cases hm : mapFind s.coercers rt.Tag with
        | none => simp
        | some sc =>
          show (coerceFields tags sc.fields []).2 ≠ some SerdeErr.panicOOB
          exact coerceFields_no_panic tags sc.fields []

/-- C10 witness: both parts at concrete inputs — an empty boolean-typed wire
value never reaches the coercion (the sip-style decoder yields the
not-nullable error, not a panic), and the coercion on a one-byte value. -/
theorem C10_bool_coercion_in_bounds_witness :
    applyCoerce DataType.BoolType [] [55] ≠ .error .panicked ∧
    (Decode { coercers := [] } [57, 48, 49, 57, 32] ).2 ≠ some .panicOOB :=
  ⟨C10_bool_coercion_in_bounds.1 DataType.BoolType [] [55] (by decide),
   C10_bool_coercion_in_bounds.2 { coercers := [] } [57, 48, 49, 57, 32]⟩

/-! ## C6: end-of-stream signaling of the frame reader -/

theorem findIdx?_eq_none (p : Nat → Bool) (l : List Nat)
    (h : ∀ c ∈ l, p c = false) : ∀ st, l.findIdx? p st = none := by
  induction l with
  | nil =>
    intro st
    simp [List.findIdx?]
  | cons a l ih =>
    intro st
    rw [List.findIdx?_cons, h a (by simp), if_neg (by simp)]
    exact ih (fun c hc => h c (by simp [hc])) (st + 1)

theorem stripLineEnding_id (s : List Nat) (h10 : (10 : Nat) ∉ s)
    (h13 : (13 : Nat) ∉ s) : stripLineEnding s = s := by
  unfold stripLineEnding
  have hlast : ∀ c, s.getLast? = some c → c ∈ s := by
    intro c hc
    obtain ⟨hne', heq⟩ :=
      List.mem_getLast?_eq_getLast (show c ∈ s.getLast? from by simp [hc, Option.mem_def])
    rw [heq]
    exact List.getLast_mem hne'
  have h1 : ¬(s ≠ [] ∧ s.getLast? = some 13) := by
    rintro ⟨-, hc⟩
    exact h13 (hlast 13 hc)
  rw [if_neg h1]
  have h2 : ¬(s ≠ [] ∧ s.getLast? = some 10) := by
    rintro ⟨-, hc⟩
    exact h10 (hlast 10 hc)
  rw [if_neg h2]

/-- C6: end-of-stream signaling.  (1) When at least one byte is read before
the stream ends — a nonempty stream with no newline — `ReadRawSMsg` returns
those bytes (line-ending strip applied, the identity when the data carries
no CR) as a valid frame with no error, and the end-of-stream condition
surfaces only on the next call, which yields the clean `EOS` signal.
(2) A call that reads zero bytes at a genuine end of stream returns `EOS`.
(3) A call whose underlying read returns zero bytes with no error returns
`ErrUnexpectedEnd`. -/
theorem C6_end_of_stream_signaling :
    (∀ s : List Nat, s ≠ [] → (10 : Nat) ∉ s →
      ReadRawSMsg s = ((stripLineEnding s, none), []) ∧
      (ReadRawSMsg ((ReadRawSMsg s).2)).1 = ([], some .eos) ∧
      ((13 : Nat) ∉ s → stripLineEnding s = s)) ∧
    ReadRawSMsg [] = (([], some .eos), []) ∧
    readRawSMsgStep [] none = ([], some .errUnexpectedEnd) := by
  refine ⟨?_, rfl, rfl⟩
  intro s hne h10
  have hidx : s.findIdx? (fun c => c == 10) 0 = none :=
    findIdx?_eq_none _ s (fun c hc => by
      simp only [beq_eq_false_iff_ne, ne_eq]
      intro hc10
      exact h10 (hc10 ▸ hc)) 0
  have hrb : readBytesNewline s = ((s, some .ioEOF), []) := by
    unfold readBytesNewline
    rw [hidx]
  have hstep : readRawSMsgStep s (some .ioEOF) = (stripLineEnding s, none) := by
    unfold readRawSMsgStep
    rw [if_pos hne, if_pos rfl]
  have hmain : ReadRawSMsg s = ((stripLineEnding s, none), []) := by
    unfold ReadRawSMsg
    rw [hrb]
    show (readRawSMsgStep s (some .ioEOF), ([] : List Nat)) = _
    rw [hstep]
  refine ⟨hmain, ?_, stripLineEnding_id s h10⟩
  rw [hmain]
  rfl

/-- C6 witness: the stream `"10015 hello"` with no trailing newline — the
frame comes back intact with no error, the next call reports `EOS`, and the
zero-byte cases. -/
theorem C6_end_of_stream_signaling_witness :
    ([49, 48, 48, 49, 53, 32, 104, 101, 108, 108, 111] : List Nat) ≠ [] ∧
    ReadRawSMsg [49, 48, 48, 49, 53, 32, 104, 101, 108, 108, 111] =
      ((stripLineEnding [49, 48, 48, 49, 53, 32, 104, 101, 108, 108, 111], none), []) ∧
    (ReadRawSMsg ((ReadRawSMsg
        [49, 48, 48, 49, 53, 32, 104, 101, 108, 108, 111]).2)).1 = ([], some .eos) ∧
    stripLineEnding [49, 48, 48, 49, 53, 32, 104, 101, 108, 108, 111] =
      [49, 48, 48, 49, 53, 32, 104, 101, 108, 108, 111] := by
  have h := C6_end_of_stream_signaling.1
    [49, 48, 48, 49, 53, 32, 104, 101, 108, 108, 111] (by decide) (by decide)
  exact ⟨by decide, h.1, h.2.1, h.2.2 (by decide)⟩

/-! ## C5: the maximum frame size (modelled from the spec)

The size-limited reader is code of this repository that is not under `src/`:
only its tests (`TestMessageSizeLimit`, `TestMessageSizeDefaultLimit`,
`TestMessageSizeAtBoundary` in smsg_test.go, which use `reader.MaxMsgSize`
and `DefaultMaxMsgSize`) and the error declaration (`MessageTooLargeError`
with `Size` and `MaxSize`, errors.go lines 33-41) are present.  The
definitions below are therefore modelled from the spec. -/

/-- Modelled from the spec: the default maximum frame size constant
(`DefaultMaxMsgSize`).  The spec fixes only its existence, not its value;
no theorem below depends on the value. -/
def DefaultMaxMsgSize : Nat := 1048576

/-- Modelled from the spec: `MessageTooLargeError{Size, MaxSize}` beside the
reader's ordinary outcomes. -/
inductive ReadLimitedErr where
  | messageTooLarge (size maxSize : Nat)
  | passthrough (e : GoErr)
  deriving DecidableEq, Repr

/-- Modelled from the spec: the reader with its per-instance maximum frame
size. -/
structure RawSMsgReaderM where
  MaxMsgSize : Nat
  deriving DecidableEq, Repr

/-- Modelled from the spec: a new reader starts with the default maximum. -/
def NewRawSMsgReaderM : RawSMsgReaderM := { MaxMsgSize := DefaultMaxMsgSize }

/-- Modelled from the spec: `ReadRawSMsg` with the size ceiling — the next
line (up to and including its newline) is measured against the configured
maximum before any frame is returned; exceeding it yields
`MessageTooLarge{size, max}` naming the offending size and the maximum, a
frame of exactly the maximum passes (per `TestMessageSizeAtBoundary`), and
otherwise the reader behaves as the unlimited one. -/
def ReadRawSMsgLimited (maxMsgSize : Nat) (s : List Nat) :
    (List Nat × Option ReadLimitedErr) × List Nat :=
  let r := readBytesNewline s
  if maxMsgSize < r.1.1.length then
    (([], some (.messageTooLarge r.1.1.length maxMsgSize)), r.2)
  else
    (((readRawSMsgStep r.1.1 r.1.2).1,
      (readRawSMsgStep r.1.1 r.1.2).2.map ReadLimitedErr.passthrough), r.2)

/-- C5: the frame reader enforces a maximum frame size — a default constant
(`NewRawSMsgReaderM` starts at `DefaultMaxMsgSize`), overridable per
instance; for every stream whose next frame (the line including its
delimiter) exceeds the configured maximum, the read surfaces the size-limit
error identifying the offending size and the configured maximum, and no
frame bytes are returned. -/
theorem C5_max_frame_size (maxMsgSize : Nat) (s : List Nat)
    (h : maxMsgSize < ((readBytesNewline s).1.1).length) :
    (ReadRawSMsgLimited maxMsgSize s).1 =
      ([], some (.messageTooLarge ((readBytesNewline s).1.1).length maxMsgSize)) ∧
    NewRawSMsgReaderM.MaxMsgSize = DefaultMaxMsgSize := by
  refine ⟨?_, rfl⟩
  unfold ReadRawSMsgLimited
  rw [if_pos h]

/-- C5 witness: a 12-byte line against a maximum of 8. -/
theorem C5_max_frame_size_witness :
    (8 : Nat) < ((readBytesNewline
        [65, 65, 65, 65, 65, 65, 65, 65, 65, 65, 65, 10]).1.1).length ∧
    (ReadRawSMsgLimited 8 [65, 65, 65, 65, 65, 65, 65, 65, 65, 65, 65, 10]).1 =
      ([], some (.messageTooLarge 12 8)) := by
  constructor
  · decide
  · have h := (C5_max_frame_size 8
      [65, 65, 65, 65, 65, 65, 65, 65, 65, 65, 65, 10] (by decide)).1
    simpa using h

/-! ## Lemmas: `strings.ToValidUTF8` is a retraction onto valid UTF-8 -/

/-- Valid UTF-8 byte lists: a (possibly empty) concatenation of sequences
accepted by `utf8Width`. -/
inductive ValidUTF8 : List Nat → Prop where
  | nil : ValidUTF8 []
  | seq (s : List Nat) (w : Nat) (hw : utf8Width s = some w)
      (hrest : ValidUTF8 (s.drop w)) : ValidUTF8 s

/-- `utf8Width` on a non-empty buffer, unfolded one step. -/
theorem utf8Width_cons (c0 : Nat) (rest : List Nat) :
    utf8Width (c0 :: rest) =
      (if c0 < 128 then some 1
      else if 194 ≤ c0 ∧ c0 ≤ 223 then
        match rest with
        | c1 :: _ => if 128 ≤ c1 ∧ c1 ≤ 191 then some 2 else none
        | [] => none
      else if 224 ≤ c0 ∧ c0 ≤ 239 then
        match rest with
        | c1 :: c2 :: _ =>
          if (utf8Lo2 c0 ≤ c1 ∧ c1 ≤ utf8Hi2 c0) ∧ (128 ≤ c2 ∧ c2 ≤ 191) then
            some 3
          else none
        | _ => none
      else if 240 ≤ c0 ∧ c0 ≤ 244 then
        match rest with
        | c1 :: c2 :: c3 :: _ =>
          if (utf8Lo2 c0 ≤ c1 ∧ c1 ≤ utf8Hi2 c0) ∧ (128 ≤ c2 ∧ c2 ≤ 191) ∧
              (128 ≤ c3 ∧ c3 ≤ 191) then
            some 4
          else none
        | _ => none
      else none) := rfl

/-- A successful `utf8Width` is between 1 and the buffer length, and depends
only on the first `w` bytes: the same width is reported after any
continuation of `s.take w`. -/
theorem utf8Width_ok (s : List Nat) (w : Nat) (h : utf8Width s = some w) :
    1 ≤ w ∧ w ≤ s.length ∧ ∀ X, utf8Width (s.take w ++ X) = some w := by
  cases s with
  | nil => exact Option.noConfusion h
  | cons c0 rest =>
    rw [utf8Width_cons] at h
    by_cases h1 : c0 < 128
    · rw [if_pos h1] at h
      injection h with h
      subst h
      refine ⟨le_rfl, by simp only [List.length_cons]; omega, ?_⟩
      intro X
      show utf8Width (c0 :: X) = some 1
      rw [utf8Width_cons, if_pos h1]
    · rw [if_neg h1] at h
      by_cases h2 : 194 ≤ c0 ∧ c0 ≤ 223
      · rw [if_pos h2] at h
        cases rest with
        | nil => exact Option.noConfusion h
        | cons c1 r1 =>
          have h' : (if 128 ≤ c1 ∧ c1 ≤ 191 then some 2 else (none : Option Nat)) =
              some w := h
          by_cases hc1 : 128 ≤ c1 ∧ c1 ≤ 191
          · rw [if_pos hc1] at h'
            injection h' with h'
            subst h'
            refine ⟨by omega, by simp only [List.length_cons]; omega, ?_⟩
            intro X
            show utf8Width (c0 :: c1 :: X) = some 2
            rw [utf8Width_cons, if_neg h1, if_pos h2]
            show (if 128 ≤ c1 ∧ c1 ≤ 191 then some 2 else none) = some 2
            rw [if_pos hc1]
          · rw [if_neg hc1] at h'
            exact Option.noConfusion h'
      · rw [if_neg h2] at h
        by_cases h3 : 224 ≤ c0 ∧ c0 ≤ 239
        · rw [if_pos h3] at h
          cases rest with
          | nil => exact Option.noConfusion h
          | cons c1 r1 =>
            cases r1 with
            | nil => exact Option.noConfusion h
            | cons c2 r2 =>
              have h' : (if (utf8Lo2 c0 ≤ c1 ∧ c1 ≤ utf8Hi2 c0) ∧
                  (128 ≤ c2 ∧ c2 ≤ 191) then some 3 else (none : Option Nat)) =
                  some w := h
              by_cases hc : (utf8Lo2 c0 ≤ c1 ∧ c1 ≤ utf8Hi2 c0) ∧
                  (128 ≤ c2 ∧ c2 ≤ 191)
              · rw [if_pos hc] at h'
                injection h' with h'
                subst h'
                refine ⟨by omega, by simp only [List.length_cons]; omega, ?_⟩
                intro X
                show utf8Width (c0 :: c1 :: c2 :: X) = some 3
                rw [utf8Width_cons, if_neg h1, if_neg h2, if_pos h3]
                show (if (utf8Lo2 c0 ≤ c1 ∧ c1 ≤ utf8Hi2 c0) ∧
                    (128 ≤ c2 ∧ c2 ≤ 191) then some 3 else none) = some 3
                rw [if_pos hc]
              · rw [if_neg hc] at h'
                exact Option.noConfusion h'
        · rw [if_neg h3] at h
          by_cases h4 : 240 ≤ c0 ∧ c0 ≤ 244
          · rw [if_pos h4] at h
            cases rest with
            | nil => exact Option.noConfusion h
            | cons c1 r1 =>
              cases r1 with
              | nil => exact Option.noConfusion h
              | cons c2 r2 =>
                cases r2 with
                | nil => exact Option.noConfusion h
                | cons c3 r3 =>
                  have h' : (if (utf8Lo2 c0 ≤ c1 ∧ c1 ≤ utf8Hi2 c0) ∧
                      (128 ≤ c2 ∧ c2 ≤ 191) ∧ (128 ≤ c3 ∧ c3 ≤ 191) then
                      some 4 else (none : Option Nat)) = some w := h
                  by_cases hc : (utf8Lo2 c0 ≤ c1 ∧ c1 ≤ utf8Hi2 c0) ∧
                      (128 ≤ c2 ∧ c2 ≤ 191) ∧ (128 ≤ c3 ∧ c3 ≤ 191)
                  · rw [if_pos hc] at h'
                    injection h' with h'
                    subst h'
                    refine ⟨by omega, by simp only [List.length_cons]; omega, ?_⟩
                    intro X
                    show utf8Width (c0 :: c1 :: c2 :: c3 :: X) = some 4
                    rw [utf8Width_cons, if_neg h1, if_neg h2, if_neg h3, if_pos h4]
                    show (if (utf8Lo2 c0 ≤ c1 ∧ c1 ≤ utf8Hi2 c0) ∧
                        (128 ≤ c2 ∧ c2 ≤ 191) ∧ (128 ≤ c3 ∧ c3 ≤ 191) then
                        some 4 else none) = some 4
                    rw [if_pos hc]
                  · rw [if_neg hc] at h'
                    exact Option.noConfusion h'
          · rw [if_neg h4] at h
            exact Option.noConfusion h

/-- The copy loop on a non-empty buffer, unfolded one step. -/
theorem toValidUTF8Aux_succ (fuel : Nat) (c : Nat) (rest : List Nat) (inv : Bool) :
    toValidUTF8Aux (fuel + 1) (c :: rest) inv =
      (match utf8Width (c :: rest) with
      | some w => (c :: rest).take w ++ toValidUTF8Aux fuel ((c :: rest).drop w) false
      | none => (if inv then [] else [63]) ++ toValidUTF8Aux fuel rest true) := rfl

theorem toValidUTF8Aux_width (fuel : Nat) (c : Nat) (rest : List Nat) (inv : Bool)
    (w : Nat) (hw : utf8Width (c :: rest) = some w) :
    toValidUTF8Aux (fuel + 1) (c :: rest) inv =
      (c :: rest).take w ++ toValidUTF8Aux fuel ((c :: rest).drop w) false := by
  rw [toValidUTF8Aux_succ, hw]

theorem toValidUTF8Aux_invalid (fuel : Nat) (c : Nat) (rest : List Nat) (inv : Bool)
    (hw : utf8Width (c :: rest) = none) :
    toValidUTF8Aux (fuel + 1) (c :: rest) inv =
      (if inv then [] else [63]) ++ toValidUTF8Aux fuel rest true := by
  rw [toValidUTF8Aux_succ, hw]

/-- With fuel at least the buffer length, the copy loop's output is valid
UTF-8: copied sequences stay accepted after the continuation (`utf8Width_ok`)
and each replacement byte `'?'` is an ASCII sequence of width 1. -/
theorem toValidUTF8Aux_valid (fuel : Nat) :
    ∀ (s : List Nat) (inv : Bool), s.length ≤ fuel →
      ValidUTF8 (toValidUTF8Aux fuel s inv) := by
  induction fuel with
  | zero =>
    intro s inv _
    exact ValidUTF8.nil
  | succ fuel ih =>
    intro s inv hlen
    cases s with
    | nil => exact ValidUTF8.nil
    | cons c rest =>
      cases hw : utf8Width (c :: rest) with
      | some w =>
        rw [toValidUTF8Aux_width fuel c rest inv w hw]
        obtain ⟨hw1, hwle, hstable⟩ := utf8Width_ok _ w hw
        have htake : ((c :: rest).take w).length = w := by
          rw [List.length_take]
          omega
        refine ValidUTF8.seq _ w (hstable _) ?_
        have hdrop : ((c :: rest).take w ++
            toValidUTF8Aux fuel ((c :: rest).drop w) false).drop w =
            toValidUTF8Aux fuel ((c :: rest).drop w) false :=
          List.drop_left' htake
        rw [hdrop]
        apply ih
        rw [List.length_drop]
        simp only [List.length_cons] at hlen ⊢
        omega
      | none =>
        rw [toValidUTF8Aux_invalid fuel c rest inv hw]
        have hrest : ValidUTF8 (toValidUTF8Aux fuel rest true) := by
          apply ih
          simp only [List.length_cons] at hlen
          omega
        by_cases hinv : inv = true
        · rw [if_pos hinv, List.nil_append]
          exact hrest
        · rw [if_neg hinv]
          refine ValidUTF8.seq _ 1 ?_ ?_
          · show utf8Width (63 :: toValidUTF8Aux fuel rest true) = some 1
            rw [utf8Width_cons, if_pos (by norm_num)]
          · exact hrest

/-- On valid UTF-8 the copy loop with sufficient fuel is the identity. -/
theorem toValidUTF8Aux_id (fuel : Nat) :
    ∀ s : List Nat, ValidUTF8 s → s.length ≤ fuel →
      toValidUTF8Aux fuel s false = s := by
  induction fuel with
  | zero =>
    intro s _ hlen
    cases s with
    | nil => rfl
    | cons c rest => exact absurd hlen (by simp)
  | succ fuel ih =>
    intro s hv hlen
    cases s with
    | nil => rfl
    | cons c rest =>
      cases hv with
      | seq _ w hw hrest =>
        rw [toValidUTF8Aux_width fuel c rest false w hw]
        obtain ⟨hw1, hwle, _⟩ := utf8Width_ok _ w hw
        rw [ih ((c :: rest).drop w) hrest
          (by rw [List.length_drop]; omega)]
        exact List.take_append_drop w (c :: rest)

/-- The copy loop never lengthens the buffer. -/
theorem toValidUTF8Aux_length_le (fuel : Nat) :
    ∀ (s : List Nat) (inv : Bool),
      (toValidUTF8Aux fuel s inv).length ≤ s.length := by
  induction fuel with
  | zero =>
    intro s inv
    simp [toValidUTF8Aux]
  | succ fuel ih =>
    intro s inv
    cases s with
    | nil => simp [toValidUTF8Aux]
    | cons c rest =>
      cases hw : utf8Width (c :: rest) with
      | some w =>
        rw [toValidUTF8Aux_width fuel c rest inv w hw]
        obtain ⟨hw1, hwle, _⟩ := utf8Width_ok _ w hw
        have h1 := ih ((c :: rest).drop w) false
        rw [List.length_append, List.length_take, List.length_drop] at *
        omega
      | none =>
        rw [toValidUTF8Aux_invalid fuel c rest inv hw]
        have h1 := ih rest true
        by_cases hinv : inv = true
        · rw [if_pos hinv, List.nil_append]
          simp only [List.length_cons]
          omega
        · rw [if_neg hinv]
          simp only [List.length_append, List.length_cons, List.length_nil]
          omega

/-- `strings.ToValidUTF8` produces valid UTF-8. -/
theorem toValidUTF8_valid (s : List Nat) : ValidUTF8 (toValidUTF8 s) :=
  toValidUTF8Aux_valid s.length s false le_rfl

/-- `strings.ToValidUTF8` is the identity on valid UTF-8. -/
theorem toValidUTF8_of_valid (s : List Nat) (h : ValidUTF8 s) :
    toValidUTF8 s = s :=
  toValidUTF8Aux_id s.length s h le_rfl

/-- `strings.ToValidUTF8` is idempotent. -/
theorem toValidUTF8_idem (s : List Nat) :
    toValidUTF8 (toValidUTF8 s) = toValidUTF8 s :=
  toValidUTF8_of_valid _ (toValidUTF8_valid s)

/-- `strings.ToValidUTF8` never lengthens the buffer. -/
theorem toValidUTF8_length_le (s : List Nat) :
    (toValidUTF8 s).length ≤ s.length :=
  toValidUTF8Aux_length_le s.length s false

/-- `strings.ToValidUTF8` maps a non-empty buffer to a non-empty buffer (the
first byte yields either a copied sequence or a replacement byte). -/
theorem toValidUTF8_ne_nil (c : Nat) (rest : List Nat) :
    toValidUTF8 (c :: rest) ≠ [] := by
  show toValidUTF8Aux (c :: rest).length (c :: rest) false ≠ []
  simp only [List.length_cons]
  cases hw : utf8Width (c :: rest) with
  | some w =>
    rw [toValidUTF8Aux_width rest.length c rest false w hw]
    obtain ⟨hw1, _, _⟩ := utf8Width_ok _ w hw
    cases w with
    | zero => exact absurd hw1 (by omega)
    | succ w =>
      simp [List.take_succ_cons]
  | none =>
    rw [toValidUTF8Aux_invalid rest.length c rest false hw]
    simp

/-! ## Lemmas: integer parse range and format length -/

/-- A value accepted by `parseInt` lies in the two's-complement range of its
bit width (the Go `ParseInt` range check, as `nextTag`'s length parse and the
integer coercions rely on it). -/
theorem parseInt_ok_range (bits : Nat) (s : List Nat) (n : Int)
    (h : parseInt bits s = .ok n) :
    -(2 ^ (bits - 1)) ≤ n ∧ n < 2 ^ (bits - 1) := by
  have hpow : (0 : Int) < 2 ^ (bits - 1) := by positivity
  cases hp : parseDecDigits
      (if s.head? = some 43 ∨ s.head? = some 45 then s.drop 1 else s) with
  | none =>
    unfold parseInt at h
    rw [hp] at h
    exact Except.noConfusion h
  | some m =>
    rw [parseInt_eq_of_parse bits s m hp] at h
    by_cases h45 : s.head? = some 45
    · rw [if_pos h45] at h
      by_cases hr : (m : Int) > 2 ^ (bits - 1)
      · rw [if_pos hr] at h
        exact Except.noConfusion h
      · rw [if_neg hr] at h
        injection h with h
        subst h
        refine ⟨neg_le_neg (not_lt.mp hr), ?_⟩
        exact lt_of_le_of_lt (neg_nonpos.mpr (Int.natCast_nonneg m)) hpow
    · rw [if_neg h45] at h
      by_cases hr : (m : Int) ≥ 2 ^ (bits - 1)
      · rw [if_pos hr] at h
        exact Except.noConfusion h
      · rw [if_neg hr] at h
        injection h with h
        subst h
        exact ⟨le_trans (neg_nonpos.mpr hpow.le) (Int.natCast_nonneg m), not_le.mp hr⟩

/-- The decimal rendering of `n < 10^k` has at most `k` digits. -/
theorem formatNat_length_le (n k : Nat) (hk : 1 ≤ k) (h : n < 10 ^ k) :
    (formatNat n).length ≤ k := by
  by_cases h0 : n = 0
  · subst h0
    simpa [formatNat] using hk
  · rw [formatNat_eq_digits n h0]
    simp only [List.length_map, List.length_reverse]
    rw [Nat.digits_len 10 n (by norm_num) h0]
    have hlog : Nat.log 10 n < k := Nat.log_lt_of_lt_pow h0 h
    omega

/-- The rendering of an int64-range value takes at most 20 bytes (a sign and
19 digits). -/
theorem formatInt_length_le_20 (v : Int) (h1 : -(2 ^ 63) ≤ v) (h2 : v ≤ 2 ^ 63) :
    (formatInt v).length ≤ 20 := by
  unfold formatInt
  by_cases hv : v < 0
  · rw [if_pos hv]
    simp only [List.length_cons]
    have hle : (-v).toNat < 10 ^ 19 := by omega
    have := formatNat_length_le (-v).toNat 19 (by norm_num) hle
    omega
  · rw [if_neg hv]
    have hle : v.toNat < 10 ^ 19 := by omega
    have := formatNat_length_le v.toNat 19 (by norm_num) hle
    omega

theorem formatInt_ne_nil (v : Int) : formatInt v ≠ [] := by
  unfold formatInt
  by_cases hv : v < 0
  · rw [if_pos hv]
    simp
  · rw [if_neg hv]
    exact formatNat_ne_nil _

/-! ## Lemmas: Go map assignment and lookup -/

theorem mapFind_mapAssign_self {K V : Type} [DecidableEq K]
    (m : List (K × V)) (k : K) (v : V) :
    mapFind (mapAssign m k v) k = some v := by
  induction m with
  | nil => simp [mapAssign, mapFind]
  | cons p rest ih =>
    obtain ⟨k', v'⟩ := p
    by_cases h : k' = k
    · subst h
      rw [mapAssign, if_pos rfl, mapFind, if_pos rfl]
    · rw [mapAssign, if_neg h, mapFind, if_neg h]
      exact ih

theorem mapFind_mapAssign_ne {K V : Type} [DecidableEq K]
    (m : List (K × V)) (k k0 : K) (v : V) (h : k0 ≠ k) :
    mapFind (mapAssign m k v) k0 = mapFind m k0 := by
  induction m with
  | nil =>
    show (if k = k0 then some v else mapFind ([] : List (K × V)) k0) =
      mapFind ([] : List (K × V)) k0
    rw [if_neg (fun hh => h hh.symm)]
  | cons p rest ih =>
    obtain ⟨k', v'⟩ := p
    by_cases hk : k' = k
    · subst hk
      rw [mapAssign, if_pos rfl, mapFind, if_neg (fun hh => h hh.symm), mapFind,
        if_neg (fun hh => h hh.symm)]
    · rw [mapAssign, if_neg hk, mapFind]
      by_cases h0 : k' = k0
      · rw [if_pos h0, mapFind, if_pos h0]
      · rw [if_neg h0, mapFind, if_neg h0]
        exact ih

/-- Folding map assignments whose keys all differ from `k` leaves the lookup
at `k` unchanged. -/
theorem mapFind_foldl_assign_of_ne {α K V : Type} [DecidableEq K]
    (key : α → K) (val : α → V) (k : K) :
    ∀ xs : List α, (∀ x ∈ xs, key x ≠ k) → ∀ acc : List (K × V),
      mapFind (xs.foldl (fun m x => mapAssign m (key x) (val x)) acc) k =
        mapFind acc k := by
  intro xs
  induction xs with
  | nil =>
    intro _ acc
    rfl
  | cons x xs ih =>
    intro h acc
    rw [List.foldl_cons, ih (fun y hy => h y (List.mem_cons_of_mem x hy))]
    exact mapFind_mapAssign_ne acc (key x) k (val x) (Ne.symm (h x (List.mem_cons_self x xs)))

/-- Looking an element's key up in the fold of map assignments over a list
containing it, when no later element shares its key, yields its value. -/
theorem mapFind_foldl_assign_mem {α K V : Type} [DecidableEq K]
    (key : α → K) (val : α → V) (pre post : List α) (x0 : α)
    (h : ∀ x ∈ post, key x ≠ key x0) (acc : List (K × V)) :
    mapFind ((pre ++ x0 :: post).foldl
        (fun m x => mapAssign m (key x) (val x)) acc) (key x0) =
      some (val x0) := by
  rw [List.foldl_append, List.foldl_cons,
    mapFind_foldl_assign_of_ne key val (key x0) post h]
  exact mapFind_mapAssign_self _ _ _

theorem mapFind_singleton_inv {K V : Type} [DecidableEq K] (k k0 : K) (v v0 : V)
    (h : mapFind [(k, v)] k0 = some v0) : k0 = k ∧ v0 = v := by
  rw [mapFind] at h
  by_cases hk : k = k0
  · rw [if_pos hk] at h
    injection h with h
    exact ⟨hk.symm, h.symm⟩
  · rw [if_neg hk] at h
    exact Option.noConfusion h

/-! ## Lemmas: bounds on the scratch tag map built by the scan -/

/-- Every binding the sibling-tag scan adds to the scratch map has a nonzero
id below `2^15` and data within the scanned scope's length. -/
theorem collectTags_find (fuel : Nat) :
    ∀ (d : List Nat) (acc res : TagMap), collectTags fuel d acc = .ok res →
      ∀ k raw, mapFind res k = some raw →
        mapFind acc k = some raw ∨ (k ≠ 0 ∧ k < 32768 ∧ raw.length ≤ d.length) := by
  induction fuel with
  | zero =>
    intro d acc res h k raw hf
    have h' : (Except.ok acc : Except GoErr TagMap) = .ok res := h
    injection h' with h'
    subst h'
    exact Or.inl hf
  | succ fuel ih =>
    intro d acc res h k raw hf
    cases hnt : NextTag d with
    | error e =>
      by_cases he : e = .eos
      · subst he
        rw [collectTags_eos_step fuel d acc hnt] at h
        injection h with h
        subst h
        exact Or.inl hf
      · rw [collectTags_err_step fuel d acc e hnt he] at h
        exact Except.noConfusion h
    | ok tr =>
      obtain ⟨t, rest⟩ := tr
      rw [collectTags_ok_step fuel d acc t rest hnt] at h
      by_cases ht0 : t.Tag = 0
      · rw [if_pos ht0] at h
        injection h with h
        subst h
        exact Or.inl hf
      · rw [if_neg ht0] at h
        obtain ⟨kk, hk4, hkle, _, hksum⟩ := NextTag_ok_tail d t rest hnt
        have htag := NextTag_ok_tag_lt d t rest hnt
        rcases ih rest _ res h k raw hf with hacc | ⟨h1, h2, h3⟩
        · by_cases hkt : k = t.Tag
          · subst hkt
            rw [mapFind_mapAssign_self] at hacc
            injection hacc with hacc
            subst hacc
            exact Or.inr ⟨ht0, htag, by omega⟩
          · rw [mapFind_mapAssign_ne acc t.Tag k t.Data hkt] at hacc
            exact Or.inl hacc
        · exact Or.inr ⟨h1, h2, by omega⟩

/-! ## Lemmas: the field loop as a per-field value function -/

/-- The value the decoder's field loop binds for one field, as a function of
the scratch tag map; `none` when the loop instead stops with an error.
Mirrors the branch structure of `coerceFields` field by field. -/
def fieldValue (tags : TagMap) (fd : fieldData) : Option Value :=
  match mapFind tags fd.smsgTag with
  | none => if fd.isNullable then some .nullV else none
  | some rawVal =>
    if rawVal.length = 0 then
      if fd.isString then some (.stringV [])
      else if fd.isNullable then some .nullV else none
    else
      match applyCoerce fd.ftype fd.enumValues rawVal with
      | .ok v => some v
      | .error _ => none

theorem fieldValue_absent (tags : TagMap) (fd : fieldData)
    (h : mapFind tags fd.smsgTag = none) :
    fieldValue tags fd = (if fd.isNullable then some .nullV else none) := by
  unfold fieldValue
  rw [h]

theorem fieldValue_found (tags : TagMap) (fd : fieldData) (rawVal : List Nat)
    (h : mapFind tags fd.smsgTag = some rawVal) :
    fieldValue tags fd =
      (if rawVal.length = 0 then
        if fd.isString then some (.stringV [])
        else if fd.isNullable then some .nullV else none
      else
        match applyCoerce fd.ftype fd.enumValues rawVal with
        | .ok v => some v
        | .error _ => none) := by
  unfold fieldValue
  rw [h]

/-- When the per-field value is defined, the field loop binds it and moves
on. -/
theorem coerceFields_cons_of_fieldValue (tags : TagMap) (fd : fieldData)
    (rest : List fieldData) (acc : Fields) (v : Value)
    (h : fieldValue tags fd = some v) :
    coerceFields tags (fd :: rest) acc =
      coerceFields tags rest (mapAssign acc fd.name v) := by
  cases hfind : mapFind tags fd.smsgTag with
  | none =>
    rw [fieldValue_absent tags fd hfind] at h
    rw [coerceFields_cons_absent tags fd rest acc hfind]
    by_cases hn : fd.isNullable = true
    · rw [if_pos hn] at h ⊢
      have h' : Value.nullV = v := by injection h
      rw [← h']
    · rw [if_neg hn] at h
      exact Option.noConfusion h
  | some rawVal =>
    rw [fieldValue_found tags fd rawVal hfind] at h
    rw [coerceFields_cons_found tags fd rest acc rawVal hfind]
    by_cases h0 : rawVal.length = 0
    · rw [if_pos h0] at h ⊢
      by_cases hs : fd.isString = true
      · rw [if_pos hs] at h ⊢
        have h' : Value.stringV [] = v := by injection h
        rw [← h']
      · rw [if_neg hs] at h ⊢
        by_cases hn : fd.isNullable = true
        · rw [if_pos hn] at h ⊢
          have h' : Value.nullV = v := by injection h
          rw [← h']
        · rw [if_neg hn] at h
          exact Option.noConfusion h
    · rw [if_neg h0] at h ⊢
      cases hac : applyCoerce fd.ftype fd.enumValues rawVal with
      | ok w =>
        rw [hac] at h
        have h' : some w = some v := h
        injection h' with h'
        subst h'
        rfl
      | error e =>
        rw [hac] at h
        exact Option.noConfusion h

/-- A successful field loop defines every per-field value and is the fold of
the corresponding bindings over the accumulator. -/
theorem coerceFields_success (tags : TagMap) :
    ∀ (fds : List fieldData) (acc out : Fields),
      coerceFields tags fds acc = (out, none) →
      (∀ fd ∈ fds, fieldValue tags fd ≠ none) ∧
      out = fds.foldl
        (fun m fd => mapAssign m fd.name ((fieldValue tags fd).getD .nullV)) acc := by
  intro fds
  induction fds with
  | nil =>
    intro acc out h
    have h' : (acc, (none : Option SerdeErr)) = (out, none) := h
    injection h' with h1 h2
    subst h1
    exact ⟨by simp, by simp⟩
  | cons fd rest ih =>
    intro acc out h
    cases hv : fieldValue tags fd with
    | none =>
      exfalso
      cases hfind : mapFind tags fd.smsgTag with
      | none =>
        rw [fieldValue_absent tags fd hfind] at hv
        rw [coerceFields_cons_absent tags fd rest acc hfind] at h
        by_cases hn : fd.isNullable = true
        · rw [if_pos hn] at hv
          exact Option.noConfusion hv
        · rw [if_neg hn] at h
          have h' : (acc, some (SerdeErr.notNullable fd.name)) = (out, none) := h
          injection h' with h1 h2
          exact Option.noConfusion h2
      | some rawVal =>
        rw [fieldValue_found tags fd rawVal hfind] at hv
        rw [coerceFields_cons_found tags fd rest acc rawVal hfind] at h
        by_cases h0 : rawVal.length = 0
        · rw [if_pos h0] at hv h
          by_cases hs : fd.isString = true
          · rw [if_pos hs] at hv
            exact Option.noConfusion hv
          · rw [if_neg hs] at hv h
            by_cases hn : fd.isNullable = true
            · rw [if_pos hn] at hv
              exact Option.noConfusion hv
            · rw [if_neg hn] at h
              have h' : (acc, some (SerdeErr.notNullable fd.name)) = (out, none) := h
              injection h' with h1 h2
              exact Option.noConfusion h2
        · rw [if_neg h0] at hv h
          cases hac : applyCoerce fd.ftype fd.enumValues rawVal with
          | ok w =>
            rw [hac] at hv
            exact Option.noConfusion hv
          | error e =>
            rw [hac] at h
            cases e with
            | err =>
              have h' : (acc, some (SerdeErr.convErr fd.name)) = (out, none) := h
              injection h' with h1 h2
              exact Option.noConfusion h2
            | panicked =>
              have h' : (acc, some SerdeErr.panicOOB) = (out, none) := h
              injection h' with h1 h2
              exact Option.noConfusion h2
    | some v =>
      rw [coerceFields_cons_of_fieldValue tags fd rest acc v hv] at h
      obtain ⟨hall, hout⟩ := ih _ _ h
      refine ⟨?_, ?_⟩
      · intro g hg
        rcases List.mem_cons.mp hg with hgfd | hgrest
        · subst hgfd
          simp [hv]
        · exact hall g hgrest
      · rw [List.foldl_cons, hv]
        exact hout

/-- In a successful field loop over pairwise distinct field names, the final
map binds every field's name to its per-field value. -/
theorem coerceFields_lookup (tags : TagMap) (fds : List fieldData)
    (acc out : Fields)
    (h : coerceFields tags fds acc = (out, none))
    (hnd : fds.Pairwise (fun a b => a.name ≠ b.name)) :
    ∀ fd0 ∈ fds, mapFind out fd0.name = some ((fieldValue tags fd0).getD .nullV) := by
  intro fd0 hmem
  obtain ⟨_, hout⟩ := coerceFields_success tags fds acc out h
  obtain ⟨pre, post, rfl⟩ := List.append_of_mem hmem
  have hpost : ∀ x ∈ post, x.name ≠ fd0.name := by
    have h1 := (List.pairwise_append.mp hnd).2.1
    exact fun x hx => ((List.pairwise_cons.mp h1).1 x hx).symm
  rw [hout]
  exact mapFind_foldl_assign_mem (fun fd => fd.name)
    (fun fd => (fieldValue tags fd).getD .nullV) pre post fd0 hpost acc

/-- Two tag maps that agree on every per-field value (all defined) drive the
field loop identically. -/
theorem coerceFields_congr (tags1 tags2 : TagMap) :
    ∀ (fds : List fieldData) (acc : Fields),
      (∀ fd ∈ fds, fieldValue tags2 fd = fieldValue tags1 fd) →
      (∀ fd ∈ fds, fieldValue tags1 fd ≠ none) →
      coerceFields tags2 fds acc = coerceFields tags1 fds acc := by
  intro fds
  induction fds with
  | nil =>
    intro acc _ _
    rfl
  | cons fd rest ih =>
    intro acc heq hsome
    cases hv : fieldValue tags1 fd with
    | none => exact absurd hv (hsome fd (List.mem_cons_self fd rest))
    | some v =>
      have hv2 : fieldValue tags2 fd = some v := by
        rw [heq fd (List.mem_cons_self fd rest), hv]
      rw [coerceFields_cons_of_fieldValue tags1 fd rest acc v hv,
        coerceFields_cons_of_fieldValue tags2 fd rest acc v hv2]
      exact ih _ (fun g hg => heq g (List.mem_cons_of_mem fd hg))
        (fun g hg => hsome g (List.mem_cons_of_mem fd hg))

/-- No coercion function returns the nil value. -/
theorem applyCoerce_ne_null (t : DataType) (env : List (List Nat))
    (raw : List Nat) : applyCoerce t env raw ≠ .ok .nullV := by
  intro h
  cases t with
  | Int8Type =>
    unfold applyCoerce at h
    cases hp : parseInt 8 raw with
    | error e =>
      rw [hp] at h
      exact Except.noConfusion h
    | ok i =>
      rw [hp] at h
      have h' : Value.intV 8 i = Value.nullV := by injection h
      exact Value.noConfusion h'
  | Int16Type =>
    unfold applyCoerce at h
    cases hp : parseInt 16 raw with
    | error e =>
      rw [hp] at h
      exact Except.noConfusion h
    | ok i =>
      rw [hp] at h
      have h' : Value.intV 16 i = Value.nullV := by injection h
      exact Value.noConfusion h'
  | Int32Type =>
    unfold applyCoerce at h
    cases hp : parseInt 32 raw with
    | error e =>
      rw [hp] at h
      exact Except.noConfusion h
    | ok i =>
      rw [hp] at h
      have h' : Value.intV 32 i = Value.nullV := by injection h
      exact Value.noConfusion h'
  | Int64Type =>
    unfold applyCoerce at h
    cases hp : parseInt 64 raw with
    | error e =>
      rw [hp] at h
      exact Except.noConfusion h
    | ok i =>
      rw [hp] at h
      have h' : Value.intV 64 i = Value.nullV := by injection h
      exact Value.noConfusion h'
  | BoolType =>
    cases raw with
    | nil => exact Except.noConfusion h
    | cons c tl =>
      have h' : Value.boolV (decide (c ≠ 48)) = Value.nullV := by injection h
      exact Value.noConfusion h'
  | StringType =>
    have h' : Value.stringV (toValidUTF8 raw) = Value.nullV := by injection h
    exact Value.noConfusion h'
  | BinaryType =>
    have h' : Value.bytesV raw = Value.nullV := by injection h
    exact Value.noConfusion h'
  | EnumType =>
    unfold applyCoerce at h
    by_cases hm : raw ∈ env
    · rw [if_pos hm] at h
      have h' : Value.stringV raw = Value.nullV := by injection h
      exact Value.noConfusion h'
    · rw [if_neg hm] at h
      exact Except.noConfusion h
  | RecordType => exact Except.noConfusion h

/-- A nil binding only arises for a nullable field. -/
theorem fieldValue_null_nullable (tags : TagMap) (fd : fieldData)
    (h : fieldValue tags fd = some .nullV) : fd.isNullable = true := by
  cases hfind : mapFind tags fd.smsgTag with
  | none =>
    rw [fieldValue_absent tags fd hfind] at h
    by_cases hn : fd.isNullable = true
    · exact hn
    · rw [if_neg hn] at h
      exact Option.noConfusion h
  | some rawVal =>
    rw [fieldValue_found tags fd rawVal hfind] at h
    by_cases h0 : rawVal.length = 0
    · rw [if_pos h0] at h
      by_cases hs : fd.isString = true
      · rw [if_pos hs] at h
        have h' : Value.stringV [] = Value.nullV := by injection h
        exact Value.noConfusion h'
      · rw [if_neg hs] at h
        by_cases hn : fd.isNullable = true
        · exact hn
        · rw [if_neg hn] at h
          exact Option.noConfusion h
    · rw [if_neg h0] at h
      cases hac : applyCoerce fd.ftype fd.enumValues rawVal with
      | error e =>
        rw [hac] at h
        exact Option.noConfusion h
      | ok w =>
        rw [hac] at h
        have h' : w = Value.nullV := by injection h
        subst h'
        exact absurd hac (applyCoerce_ne_null fd.ftype fd.enumValues rawVal)

/-- A non-nil binding comes either from a non-empty wire value through the
field's coercion, or from the empty-string rule for a string-typed field;
either way the wire tag was present. -/
theorem fieldValue_some_not_null_found (tags : TagMap) (fd : fieldData)
    (v : Value) (h : fieldValue tags fd = some v) (hnn : v ≠ .nullV) :
    (∃ raw, mapFind tags fd.smsgTag = some raw ∧ raw ≠ [] ∧
        applyCoerce fd.ftype fd.enumValues raw = .ok v) ∨
      (∃ raw, mapFind tags fd.smsgTag = some raw ∧ raw.length = 0 ∧
        v = .stringV [] ∧ fd.isString = true) := by
  cases hfind : mapFind tags fd.smsgTag with
  | none =>
    rw [fieldValue_absent tags fd hfind] at h
    by_cases hn : fd.isNullable = true
    · rw [if_pos hn] at h
      have h' : Value.nullV = v := by injection h
      exact absurd h'.symm hnn
    · rw [if_neg hn] at h
      exact Option.noConfusion h
  | some rawVal =>
    rw [fieldValue_found tags fd rawVal hfind] at h
    by_cases h0 : rawVal.length = 0
    · rw [if_pos h0] at h
      by_cases hs : fd.isString = true
      · rw [if_pos hs] at h
        have h' : Value.stringV [] = v := by injection h
        exact Or.inr ⟨rawVal, rfl, h0, h'.symm, hs⟩
      · rw [if_neg hs] at h
        by_cases hn : fd.isNullable = true
        · rw [if_pos hn] at h
          have h' : Value.nullV = v := by injection h
          exact absurd h'.symm hnn
        · rw [if_neg hn] at h
          exact Option.noConfusion h
    · rw [if_neg h0] at h
      cases hac : applyCoerce fd.ftype fd.enumValues rawVal with
      | error e =>
        rw [hac] at h
        exact Option.noConfusion h
      | ok w =>
        rw [hac] at h
        have h' : some w = some v := h
        injection h' with h'
        subst h'
        exact Or.inl ⟨rawVal, rfl, fun hnil => h0 (by rw [hnil]; rfl), hac⟩

/-! ## Lemmas: inverting the decoder and encoder construction -/

/-- What a successfully built `fieldData` records about its field. -/
theorem newFieldData_inv (f : Field) (fd : fieldData)
    (h : newFieldData f = .ok fd) :
    extractSmsgTag f = .ok fd.smsgTag ∧ fd.isNullable = f.Nullable ∧
      fd.isString = decide (f.Typ = .StringType) ∧ fd.name = f.Name ∧
      fd.ftype = f.Typ ∧ f.Typ ≠ .RecordType ∧
      fd.enumValues =
        (if f.Typ = .EnumType then f.Metadata.enum_values else []) := by
  unfold newFieldData at h
  cases ht : extractSmsgTag f with
  | error e =>
    rw [ht] at h
    exact Except.noConfusion h
  | ok tag =>
    rw [ht] at h
    cases hty : f.Typ
    case RecordType =>
      rw [hty] at h
      exact Except.noConfusion h
    all_goals
      rw [hty] at h
      injection h with h2
      subst h2
      exact ⟨rfl, rfl, rfl, rfl, rfl, by decide, rfl⟩

/-- The field-plan loop pairs each schema field with its conversion data. -/
theorem buildFieldData_forall2 :
    ∀ (fs : List Field) (fds : List fieldData), buildFieldData fs = .ok fds →
      List.Forall₂ (fun f fd => newFieldData f = .ok fd) fs fds := by
  intro fs
  induction fs with
  | nil =>
    intro fds h
    have h' : (Except.ok [] : Except SerdeErr (List fieldData)) = .ok fds := h
    injection h' with h'
    subst h'
    exact List.Forall₂.nil
  | cons f rest ih =>
    intro fds h
    cases hf : newFieldData f with
    | error e =>
      rw [buildFieldData, hf] at h
      exact Except.noConfusion h
    | ok d =>
      cases hr : buildFieldData rest with
      | error e =>
        rw [buildFieldData, hf, hr] at h
        exact Except.noConfusion h
      | ok ds =>
        rw [buildFieldData, hf, hr] at h
        have h' : Except.ok (ε := SerdeErr) (d :: ds) = .ok fds := h
        injection h' with h'
        subst h'
        exact List.Forall₂.cons hf (ih ds hr)

theorem newSchemaCoercion_inv (s : Schema) (sc : schemaCoercion)
    (h : newSchemaCoercion s = .ok sc) :
    extractSmsgTag s.RecordType = .ok sc.recordTypeTag ∧
      sc.recordTypeName = s.RecordType.Name ∧
      buildFieldData s.Fields = .ok sc.fields := by
  unfold newSchemaCoercion at h
  cases ht : extractSmsgTag s.RecordType with
  | error e =>
    rw [ht] at h
    exact Except.noConfusion h
  | ok tag =>
    rw [ht] at h
    cases hb : buildFieldData s.Fields with
    | error e =>
      rw [hb] at h
      exact Except.noConfusion h
    | ok fields =>
      rw [hb] at h
      injection h with h2
      subst h2
      exact ⟨rfl, rfl, rfl⟩

/-- A decoder built from a single schema holds exactly that schema's plan,
keyed by its record tag. -/
theorem NewSchemaDecoder_single (s : Schema) (sd : SchemaDecoder)
    (h : NewSchemaDecoder [s] = .ok sd) :
    ∃ sc, newSchemaCoercion s = .ok sc ∧
      sd.coercers = [(sc.recordTypeTag, sc)] := by
  cases hc : newSchemaCoercion s with
  | error e =>
    have hb : buildCoercers [s] [] = .error e := by
      rw [buildCoercers, hc]
    unfold NewSchemaDecoder at h
    rw [hb] at h
    exact Except.noConfusion h
  | ok sc =>
    have hb : buildCoercers [s] [] = .ok [(sc.recordTypeTag, sc)] := by
      rw [buildCoercers, hc]
      rfl
    have h' : Except.ok (ε := SerdeErr)
        (SchemaDecoder.mk [(sc.recordTypeTag, sc)]) = .ok sd := by
      rw [← h]
      unfold NewSchemaDecoder
      rw [hb]
    injection h' with h'
    subst h'
    exact ⟨sc, rfl, rfl⟩

/-- An encoder built from a single schema holds exactly that schema, keyed
by its record type name. -/
theorem NewSchemaEncoder_single (s : Schema) (se : SchemaEncoder) (tag : Nat)
    (htag : extractSmsgTag s.RecordType = .ok tag)
    (h : NewSchemaEncoder [s] = .ok se) :
    se.schemas = [(s.RecordType.Name, s)] := by
  have hb : buildSchemaMap [s] [] = .ok [(s.RecordType.Name, s)] := by
    rw [buildSchemaMap, htag]
    rfl
  have h' : Except.ok (ε := SerdeErr)
      (SchemaEncoder.mk [(s.RecordType.Name, s)]) = .ok se := by
    rw [← h]
    unfold NewSchemaEncoder
    rw [hb]
  injection h' with h'
  rw [← h']

/-- `coerce` when the record tag matches a registered plan. -/
theorem coerce_found (sd : SchemaDecoder) (rtag : Nat) (tags : TagMap)
    (sc : schemaCoercion) (h : mapFind sd.coercers rtag = some sc) :
    coerce sd rtag tags =
      (some { RecordType := sc.recordTypeName, RecordTag := rtag,
              Fields := (coerceFields tags sc.fields []).1 },
       (coerceFields tags sc.fields []).2) := by
  unfold coerce
  rw [h]

/-- Inversion of a successful `Decode`: the parsed record tag matched a
plan, the scan succeeded, and the field loop produced the message's fields
without error. -/
theorem Decode_ok_inv (sd : SchemaDecoder) (r : List Nat) (msg : DecodedMessage)
    (h : Decode sd r = (some msg, none)) :
    ∃ rt rrest tags sc,
      NextTag r = .ok (rt, rrest) ∧
      collectTags rt.Data.length rt.Data [] = .ok tags ∧
      mapFind sd.coercers rt.Tag = some sc ∧
      coerceFields tags sc.fields [] = (msg.Fields, none) ∧
      msg.RecordType = sc.recordTypeName ∧ msg.RecordTag = rt.Tag := by
  unfold Decode at h
  cases hnt : NextTag r with
  | error e =>
    rw [hnt] at h
    have h' : ((none : Option DecodedMessage), some (SerdeErr.iterErr e)) =
        (some msg, none) := h
    injection h' with h1 h2
    exact Option.noConfusion h1
  | ok tr =>
    obtain ⟨rt, rrest⟩ := tr
    rw [hnt] at h
    have hstep : (match collectTags rt.Data.length rt.Data [] with
        | .error e => ((none : Option DecodedMessage), some (SerdeErr.iterErr e))
        | .ok tags => coerce sd rt.Tag tags) = (some msg, none) := h
    cases hct : collectTags rt.Data.length rt.Data [] with
    | error e =>
      rw [hct] at hstep
      have h' : ((none : Option DecodedMessage), some (SerdeErr.iterErr e)) =
          (some msg, none) := hstep
      injection h' with h1 h2
      exact Option.noConfusion h1
    | ok tags =>
      rw [hct] at hstep
      cases hsc : mapFind sd.coercers rt.Tag with
      | none =>
        have h' : coerce sd rt.Tag tags = (some msg, none) := hstep
        unfold coerce at h'
        rw [hsc] at h'
        have h'' : ((none : Option DecodedMessage),
            some (SerdeErr.missingSchema rt.Tag)) = (some msg, none) := h'
        injection h'' with h1 h2
        exact Option.noConfusion h1
      | some sc =>
        have h' : coerce sd rt.Tag tags = (some msg, none) := hstep
        rw [coerce_found sd rt.Tag tags sc hsc] at h'
        injection h' with h1 h2
        injection h1 with h1
        refine ⟨rt, rrest, tags, sc, rfl, hct, hsc, ?_, ?_, ?_⟩
        · rw [← h1, ← h2]
        · rw [← h1]
        · rw [← h1]

/-- A `Forall₂` relation yields, for every right element, a related left
element. -/
theorem forall2_mem_right {α β : Type} {R : α → β → Prop} :
    ∀ {l1 : List α} {l2 : List β}, List.Forall₂ R l1 l2 →
      ∀ b ∈ l2, ∃ a ∈ l1, R a b := by
  intro l1 l2 hf
  induction hf with
  | nil =>
    intro b hb
    exact absurd hb (by simp)
  | @cons a b l1' l2' hab hrest ih =>
    intro b2 hb2
    rcases List.mem_cons.mp hb2 with hb2h | hb2t
    · subst hb2h
      exact ⟨a, List.mem_cons_self a l1', hab⟩
    · obtain ⟨a2, ha2, hr2⟩ := ih b2 hb2t
      exact ⟨a2, List.mem_cons_of_mem a ha2, hr2⟩

/-- Transport of pairwise facts along a `Forall₂` relation. -/
theorem pairwise_of_forall2 {α β : Type} (R : α → β → Prop)
    (P : α → α → Prop) (Q : β → β → Prop)
    (hPQ : ∀ a b a2 b2, R a b → R a2 b2 → P a a2 → Q b b2) :
    ∀ (l1 : List α) (l2 : List β), List.Forall₂ R l1 l2 →
      l1.Pairwise P → l2.Pairwise Q := by
  intro l1 l2 hf
  induction hf with
  | nil =>
    intro _
    exact List.Pairwise.nil
  | @cons a b l1' l2' hab hrest ih =>
    intro hp
    obtain ⟨hhead, htail⟩ := List.pairwise_cons.mp hp
    refine List.Pairwise.cons ?_ (ih htail)
    intro b2 hb2
    obtain ⟨a2, ha2, hr2⟩ := forall2_mem_right hrest b2 hb2
    exact hPQ a b a2 b2 hab hr2 (hhead a2 ha2)

/-! ## Lemmas: the encoder's wire bytes for decoded values -/

/-- The wire bytes the encoder writes for a decoded value, by the value's
dynamic type; `none` is the nil skip. -/
def encBytes (v : Value) : Option (List Nat) :=
  match v with
  | .nullV => none
  | .intV _ n => some (formatInt n)
  | .boolV b => some (if b then [49] else [48])
  | .stringV s => some s
  | .bytesV bs => some bs

/-- `encodeValue` on a coercion output of the field's own plan: the dynamic
type always matches the declared type, and the result is the value's wire
bytes. -/
theorem encodeValue_of_coerce (f : Field) (fd : fieldData) (raw : List Nat)
    (v : Value) (hm : newFieldData f = .ok fd)
    (hac : applyCoerce fd.ftype fd.enumValues raw = .ok v) :
    encodeValue f v = .ok (encBytes v) := by
  obtain ⟨htag, hnul, hstr, hname, htyp, hrec, henv⟩ := newFieldData_inv f fd hm
  rw [htyp, henv] at hac
  cases hT : f.Typ
  case RecordType => exact absurd hT hrec
  case Int8Type =>
    rw [hT] at hac
    unfold applyCoerce at hac
    cases hp : parseInt 8 raw with
    | error e =>
      rw [hp] at hac
      exact Except.noConfusion hac
    | ok i =>
      rw [hp] at hac
      have h' : Except.ok (ε := CoerceFail) (Value.intV 8 i) = .ok v := hac
      injection h' with h'
      subst h'
      unfold encodeValue
      rw [hT]
      rfl
  case Int16Type =>
    rw [hT] at hac
    unfold applyCoerce at hac
    cases hp : parseInt 16 raw with
    | error e =>
      rw [hp] at hac
      exact Except.noConfusion hac
    | ok i =>
      rw [hp] at hac
      have h' : Except.ok (ε := CoerceFail) (Value.intV 16 i) = .ok v := hac
      injection h' with h'
      subst h'
      unfold encodeValue
      rw [hT]
      rfl
  case Int32Type =>
    rw [hT] at hac
    unfold applyCoerce at hac
    cases hp : parseInt 32 raw with
    | error e =>
      rw [hp] at hac
      exact Except.noConfusion hac
    | ok i =>
      rw [hp] at hac
      have h' : Except.ok (ε := CoerceFail) (Value.intV 32 i) = .ok v := hac
      injection h' with h'
      subst h'
      unfold encodeValue
      rw [hT]
      rfl
  case Int64Type =>
    rw [hT] at hac
    unfold applyCoerce at hac
    cases hp : parseInt 64 raw with
    | error e =>
      rw [hp] at hac
      exact Except.noConfusion hac
    | ok i =>
      rw [hp] at hac
      have h' : Except.ok (ε := CoerceFail) (Value.intV 64 i) = .ok v := hac
      injection h' with h'
      subst h'
      unfold encodeValue
      rw [hT]
      rfl
  case BoolType =>
    rw [hT] at hac
    cases raw with
    | nil => exact Except.noConfusion hac
    | cons c tl =>
      have h' : Except.ok (ε := CoerceFail)
          (Value.boolV (decide (c ≠ 48))) = .ok v := hac
      injection h' with h'
      subst h'
      unfold encodeValue
      rw [hT]
      rfl
  case StringType =>
    rw [hT] at hac
    have h' : Except.ok (ε := CoerceFail)
        (Value.stringV (toValidUTF8 raw)) = .ok v := hac
    injection h' with h'
    subst h'
    unfold encodeValue
    rw [hT]
    rfl
  case BinaryType =>
    rw [hT] at hac
    have h' : Except.ok (ε := CoerceFail) (Value.bytesV raw) = .ok v := hac
    injection h' with h'
    subst h'
    unfold encodeValue
    rw [hT]
    rfl
  case EnumType =>
    rw [hT] at hac
    rw [if_pos rfl] at hac
    unfold applyCoerce at hac
    by_cases hmem : raw ∈ f.Metadata.enum_values
    · rw [if_pos hmem] at hac
      injection hac with h'
      subst h'
      unfold encodeValue
      rw [hT]
      show (if raw ∈ f.Metadata.enum_values then
          Except.ok (ε := SerdeErr) (some raw)
        else .error (.invalidEnum f.Name)) = .ok (some raw)
      rw [if_pos hmem]
    · rw [if_neg hmem] at hac
      exact Except.noConfusion hac

/-- `encodeValue` on the decoder's empty-string binding. -/
theorem encodeValue_empty_string (f : Field) (hT : f.Typ = .StringType) :
    encodeValue f (.stringV []) = .ok (some []) := by
  unfold encodeValue
  rw [hT]

/-- Parse range of all the modelled integer widths fits in an int64. -/
theorem parseInt_small_range (bits : Nat) (hbits : bits ≤ 64) (s : List Nat)
    (i : Int) (h : parseInt bits s = .ok i) :
    -(2 ^ 63) ≤ i ∧ i ≤ 2 ^ 63 := by
  obtain ⟨h1, h2⟩ := parseInt_ok_range bits s i h
  have hleN : (2 : Nat) ^ (bits - 1) ≤ 2 ^ 63 :=
    Nat.pow_le_pow_right (by norm_num) (by omega)
  have hle : (2 : Int) ^ (bits - 1) ≤ 2 ^ 63 := by exact_mod_cast hleN
  exact ⟨le_trans (neg_le_neg hle) h1, le_trans h2.le hle⟩

/-- The emitted wire bytes of a coerced value are bounded by the raw wire
value's length or the 20-byte integer rendering bound. -/
theorem encBytes_length_le (t : DataType) (env : List (List Nat))
    (raw : List Nat) (v : Value) (bytes : List Nat)
    (hv : applyCoerce t env raw = .ok v) (hb : encBytes v = some bytes) :
    bytes.length ≤ max raw.length 20 := by
  cases t with
  | Int8Type =>
    unfold applyCoerce at hv
    cases hp : parseInt 8 raw with
    | error e =>
      rw [hp] at hv
      exact Except.noConfusion hv
    | ok i =>
      rw [hp] at hv
      have h' : Except.ok (ε := CoerceFail) (Value.intV 8 i) = .ok v := hv
      injection h' with h'
      subst h'
      have hb' : some (formatInt i) = some bytes := hb
      injection hb' with hb'
      subst hb'
      have hr := parseInt_small_range 8 (by norm_num) raw i hp
      exact le_trans (formatInt_length_le_20 i hr.1 hr.2) (le_max_right _ _)
  | Int16Type =>
    unfold applyCoerce at hv
    cases hp : parseInt 16 raw with
    | error e =>
      rw [hp] at hv
      exact Except.noConfusion hv
    | ok i =>
      rw [hp] at hv
      have h' : Except.ok (ε := CoerceFail) (Value.intV 16 i) = .ok v := hv
      injection h' with h'
      subst h'
      have hb' : some (formatInt i) = some bytes := hb
      injection hb' with hb'
      subst hb'
      have hr := parseInt_small_range 16 (by norm_num) raw i hp
      exact le_trans (formatInt_length_le_20 i hr.1 hr.2) (le_max_right _ _)
  | Int32Type =>
    unfold applyCoerce at hv
    cases hp : parseInt 32 raw with
    | error e =>
      rw [hp] at hv
      exact Except.noConfusion hv
    | ok i =>
      rw [hp] at hv
      have h' : Except.ok (ε := CoerceFail) (Value.intV 32 i) = .ok v := hv
      injection h' with h'
      subst h'
      have hb' : some (formatInt i) = some bytes := hb
      injection hb' with hb'
      subst hb'
      have hr := parseInt_small_range 32 (by norm_num) raw i hp
      exact le_trans (formatInt_length_le_20 i hr.1 hr.2) (le_max_right _ _)
  | Int64Type =>
    unfold applyCoerce at hv
    cases hp : parseInt 64 raw with
    | error e =>
      rw [hp] at hv
      exact Except.noConfusion hv
    | ok i =>
      rw [hp] at hv
      have h' : Except.ok (ε := CoerceFail) (Value.intV 64 i) = .ok v := hv
      injection h' with h'
      subst h'
      have hb' : some (formatInt i) = some bytes := hb
      injection hb' with hb'
      subst hb'
      have hr := parseInt_small_range 64 le_rfl raw i hp
      exact le_trans (formatInt_length_le_20 i hr.1 hr.2) (le_max_right _ _)
  | BoolType =>
    cases raw with
    | nil => exact Except.noConfusion hv
    | cons c tl =>
      have h' : Except.ok (ε := CoerceFail)
          (Value.boolV (decide (c ≠ 48))) = .ok v := hv
      injection h' with h'
      subst h'
      have hb' : some (if decide (c ≠ 48) = true then [49] else [48]) =
          some bytes := hb
      injection hb' with hb'
      subst hb'
      by_cases hc : decide (c ≠ 48) = true
      · rw [if_pos hc]
        exact le_trans (by norm_num) (le_max_right _ _)
      · rw [if_neg hc]
        exact le_trans (by norm_num) (le_max_right _ _)
  | StringType =>
    have h' : Except.ok (ε := CoerceFail)
        (Value.stringV (toValidUTF8 raw)) = .ok v := hv
    injection h' with h'
    subst h'
    have hb' : some (toValidUTF8 raw) = some bytes := hb
    injection hb' with hb'
    subst hb'
    exact le_trans (toValidUTF8_length_le raw) (le_max_left _ _)
  | BinaryType =>
    have h' : Except.ok (ε := CoerceFail) (Value.bytesV raw) = .ok v := hv
    injection h' with h'
    subst h'
    have hb' : some raw = some bytes := hb
    injection hb' with hb'
    subst hb'
    exact le_max_left _ _
  | EnumType =>
    unfold applyCoerce at hv
    by_cases hmem : raw ∈ env
    · rw [if_pos hmem] at hv
      injection hv with h'
      subst h'
      have hb' : some raw = some bytes := hb
      injection hb' with hb'
      subst hb'
      exact le_max_left _ _
    · rw [if_neg hmem] at hv
      exact Except.noConfusion hv
  | RecordType => exact Except.noConfusion hv

/-- The emitted wire bytes of a coerced value are non-empty (the coercions
only run on non-empty wire values, and each rendering of such a value is
non-empty). -/
theorem encBytes_coerced_ne_nil (t : DataType) (env : List (List Nat))
    (raw : List Nat) (v : Value) (bytes : List Nat)
    (hraw : raw ≠ []) (hv : applyCoerce t env raw = .ok v)
    (hb : encBytes v = some bytes) : bytes ≠ [] := by
  cases t with
  | Int8Type =>
    unfold applyCoerce at hv
    cases hp : parseInt 8 raw with
    | error e =>
      rw [hp] at hv
      exact Except.noConfusion hv
    | ok i =>
      rw [hp] at hv
      have h' : Except.ok (ε := CoerceFail) (Value.intV 8 i) = .ok v := hv
      injection h' with h'
      subst h'
      have hb' : some (formatInt i) = some bytes := hb
      injection hb' with hb'
      subst hb'
      exact formatInt_ne_nil i
  | Int16Type =>
    unfold applyCoerce at hv
    cases hp : parseInt 16 raw with
    | error e =>
      rw [hp] at hv
      exact Except.noConfusion hv
    | ok i =>
      rw [hp] at hv
      have h' : Except.ok (ε := CoerceFail) (Value.intV 16 i) = .ok v := hv
      injection h' with h'
      subst h'
      have hb' : some (formatInt i) = some bytes := hb
      injection hb' with hb'
      subst hb'
      exact formatInt_ne_nil i
  | Int32Type =>
    unfold applyCoerce at hv
    cases hp : parseInt 32 raw with
    | error e =>
      rw [hp] at hv
      exact Except.noConfusion hv
    | ok i =>
      rw [hp] at hv
      have h' : Except.ok (ε := CoerceFail) (Value.intV 32 i) = .ok v := hv
      injection h' with h'
      subst h'
      have hb' : some (formatInt i) = some bytes := hb
      injection hb' with hb'
      subst hb'
      exact formatInt_ne_nil i
  | Int64Type =>
    unfold applyCoerce at hv
    cases hp : parseInt 64 raw with
    | error e =>
      rw [hp] at hv
      exact Except.noConfusion hv
    | ok i =>
      rw [hp] at hv
      have h' : Except.ok (ε := CoerceFail) (Value.intV 64 i) = .ok v := hv
      injection h' with h'
      subst h'
      have hb' : some (formatInt i) = some bytes := hb
      injection hb' with hb'
      subst hb'
      exact formatInt_ne_nil i
  | BoolType =>
    cases raw with
    | nil => exact Except.noConfusion hv
    | cons c tl =>
      have h' : Except.ok (ε := CoerceFail)
          (Value.boolV (decide (c ≠ 48))) = .ok v := hv
      injection h' with h'
      subst h'
      have hb' : some (if decide (c ≠ 48) = true then [49] else [48]) =
          some bytes := hb
      injection hb' with hb'
      subst hb'
      by_cases hc : decide (c ≠ 48) = true
      · rw [if_pos hc]
        simp
      · rw [if_neg hc]
        simp
  | StringType =>
    have h' : Except.ok (ε := CoerceFail)
        (Value.stringV (toValidUTF8 raw)) = .ok v := hv
    injection h' with h'
    subst h'
    have hb' : some (toValidUTF8 raw) = some bytes := hb
    injection hb' with hb'
    subst hb'
    cases raw with
    | nil => exact absurd rfl hraw
    | cons c tl => exact toValidUTF8_ne_nil c tl
  | BinaryType =>
    have h' : Except.ok (ε := CoerceFail) (Value.bytesV raw) = .ok v := hv
    injection h' with h'
    subst h'
    have hb' : some raw = some bytes := hb
    injection hb' with hb'
    subst hb'
    exact hraw
  | EnumType =>
    unfold applyCoerce at hv
    by_cases hmem : raw ∈ env
    · rw [if_pos hmem] at hv
      injection hv with h'
      subst h'
      have hb' : some raw = some bytes := hb
      injection hb' with hb'
      subst hb'
      exact hraw
    · rw [if_neg hmem] at hv
      exact Except.noConfusion hv
  | RecordType => exact Except.noConfusion hv

/-- Re-coercing the emitted wire bytes of a coerced value gives the value
back: integer renderings re-parse (the parse bounds guarantee the range
check), booleans re-read their first byte, repaired strings are already
valid (idempotence), and binary and enum values pass through unchanged. -/
theorem applyCoerce_encBytes (t : DataType) (env : List (List Nat))
    (raw : List Nat) (v : Value) (bytes : List Nat)
    (hv : applyCoerce t env raw = .ok v) (hb : encBytes v = some bytes) :
    applyCoerce t env bytes = .ok v := by
  cases t with
  | Int8Type =>
    unfold applyCoerce at hv ⊢
    cases hp : parseInt 8 raw with
    | error e =>
      rw [hp] at hv
      exact Except.noConfusion hv
    | ok i =>
      rw [hp] at hv
      have h' : Except.ok (ε := CoerceFail) (Value.intV 8 i) = .ok v := hv
      injection h' with h'
      subst h'
      have hb' : some (formatInt i) = some bytes := hb
      injection hb' with hb'
      subst hb'
      obtain ⟨h1, h2⟩ := parseInt_ok_range 8 raw i hp
      rw [parseInt_formatInt 8 i h1 h2]
  | Int16Type =>
    unfold applyCoerce at hv ⊢
    cases hp : parseInt 16 raw with
    | error e =>
      rw [hp] at hv
      exact Except.noConfusion hv
    | ok i =>
      rw [hp] at hv
      have h' : Except.ok (ε := CoerceFail) (Value.intV 16 i) = .ok v := hv
      injection h' with h'
      subst h'
      have hb' : some (formatInt i) = some bytes := hb
      injection hb' with hb'
      subst hb'
      obtain ⟨h1, h2⟩ := parseInt_ok_range 16 raw i hp
      rw [parseInt_formatInt 16 i h1 h2]
  | Int32Type =>
    unfold applyCoerce at hv ⊢
    cases hp : parseInt 32 raw with
    | error e =>
      rw [hp] at hv
      exact Except.noConfusion hv
    | ok i =>
      rw [hp] at hv
      have h' : Except.ok (ε := CoerceFail) (Value.intV 32 i) = .ok v := hv
      injection h' with h'
      subst h'
      have hb' : some (formatInt i) = some bytes := hb
      injection hb' with hb'
      subst hb'
      obtain ⟨h1, h2⟩ := parseInt_ok_range 32 raw i hp
      rw [parseInt_formatInt 32 i h1 h2]
  | Int64Type =>
    unfold applyCoerce at hv ⊢
    cases hp : parseInt 64 raw with
    | error e =>
      rw [hp] at hv
      exact Except.noConfusion hv
    | ok i =>
      rw [hp] at hv
      have h' : Except.ok (ε := CoerceFail) (Value.intV 64 i) = .ok v := hv
      injection h' with h'
      subst h'
      have hb' : some (formatInt i) = some bytes := hb
      injection hb' with hb'
      subst hb'
      obtain ⟨h1, h2⟩ := parseInt_ok_range 64 raw i hp
      rw [parseInt_formatInt 64 i h1 h2]
  | BoolType =>
    cases raw with
    | nil => exact Except.noConfusion hv
    | cons c tl =>
      have h' : Except.ok (ε := CoerceFail)
          (Value.boolV (decide (c ≠ 48))) = .ok v := hv
      injection h' with h'
      subst h'
      have hb' : some (if decide (c ≠ 48) = true then [49] else [48]) =
          some bytes := hb
      injection hb' with hb'
      by_cases hc : decide (c ≠ 48) = true
      · rw [if_pos hc] at hb'
        subst hb'
        rw [hc]
        rfl
      · rw [if_neg hc] at hb'
        subst hb'
        rw [Bool.eq_false_iff.mpr hc]
        rfl
  | StringType =>
    have h' : Except.ok (ε := CoerceFail)
        (Value.stringV (toValidUTF8 raw)) = .ok v := hv
    injection h' with h'
    subst h'
    have hb' : some (toValidUTF8 raw) = some bytes := hb
    injection hb' with hb'
    subst hb'
    show Except.ok (Value.stringV (toValidUTF8 (toValidUTF8 raw))) = _
    rw [toValidUTF8_idem]
  | BinaryType =>
    have h' : Except.ok (ε := CoerceFail) (Value.bytesV raw) = .ok v := hv
    injection h' with h'
    subst h'
    have hb' : some raw = some bytes := hb
    injection hb' with hb'
    subst hb'
    rfl
  | EnumType =>
    unfold applyCoerce at hv ⊢
    by_cases hmem : raw ∈ env
    · rw [if_pos hmem] at hv
      injection hv with h'
      subst h'
      have hb' : some raw = some bytes := hb
      injection hb' with hb'
      subst hb'
      rw [if_pos hmem]
    · rw [if_neg hmem] at hv
      exact Except.noConfusion hv
  | RecordType => exact Except.noConfusion hv

/-! ## Lemmas: the encoder field loop and its emitted tag sequence -/

theorem addTagsBytes_cons (p : Nat × List Nat) (ts : List (Nat × List Nat)) :
    addTagsBytes (p :: ts) = Add p.1 p.2 ++ addTagsBytes ts := rfl

theorem encodeFields_cons_null (msgFields : Fields) (field : Field)
    (rest : List Field) (inner : List Nat)
    (h : mapFind msgFields field.Name = some .nullV) :
    encodeFields msgFields (field :: rest) inner =
      (if field.Nullable then encodeFields msgFields rest inner
       else .error (.requiredMissing field.Name)) := by
  rw [encodeFields, h]

theorem encodeFields_cons_val (msgFields : Fields) (field : Field)
    (rest : List Field) (inner : List Nat) (v : Value)
    (h : mapFind msgFields field.Name = some v) (hnn : v ≠ .nullV) :
    encodeFields msgFields (field :: rest) inner =
      (match encodeValue field v with
      | .error e => .error e
      | .ok none => encodeFields msgFields rest inner
      | .ok (some data) =>
        match extractSmsgTag field with
        | .error e => .error (.schemaErr e)
        | .ok tag => encodeFields msgFields rest (inner ++ Add tag data)) := by
  cases v with
  | nullV => exact absurd rfl hnn
  | intV bits n => rw [encodeFields, h]
  | boolV b => rw [encodeFields, h]
  | stringV s => rw [encodeFields, h]
  | bytesV bs => rw [encodeFields, h]

/-- The (tag, bytes) pairs the encoder emits for a field plan against a
given decode tag map, in schema order: one pair per field whose decoded
value is not nil. -/
def emittedOf (tags : TagMap) : List fieldData → List (Nat × List Nat)
  | [] => []
  | fd :: rest =>
    match fieldValue tags fd with
    | some v =>
      match encBytes v with
      | some bytes => (fd.smsgTag, bytes) :: emittedOf tags rest
      | none => emittedOf tags rest
    | none => emittedOf tags rest

theorem emittedOf_cons (tags : TagMap) (fd : fieldData) (rest : List fieldData) :
    emittedOf tags (fd :: rest) =
      (match fieldValue tags fd with
      | some v =>
        match encBytes v with
        | some bytes => (fd.smsgTag, bytes) :: emittedOf tags rest
        | none => emittedOf tags rest
      | none => emittedOf tags rest) := rfl

theorem emittedOf_cons_none (tags : TagMap) (fd : fieldData)
    (rest : List fieldData) (hv : fieldValue tags fd = none) :
    emittedOf tags (fd :: rest) = emittedOf tags rest := by
  rw [emittedOf_cons, hv]

theorem emittedOf_cons_some (tags : TagMap) (fd : fieldData)
    (rest : List fieldData) (v : Value) (hv : fieldValue tags fd = some v) :
    emittedOf tags (fd :: rest) =
      (match encBytes v with
      | some bytes => (fd.smsgTag, bytes) :: emittedOf tags rest
      | none => emittedOf tags rest) := by
  rw [emittedOf_cons, hv]

theorem emittedOf_cons_skip (tags : TagMap) (fd : fieldData)
    (rest : List fieldData) (v : Value) (hv : fieldValue tags fd = some v)
    (hb : encBytes v = none) :
    emittedOf tags (fd :: rest) = emittedOf tags rest := by
  rw [emittedOf_cons_some tags fd rest v hv, hb]

theorem emittedOf_cons_bytes (tags : TagMap) (fd : fieldData)
    (rest : List fieldData) (v : Value) (bytes : List Nat)
    (hv : fieldValue tags fd = some v) (hb : encBytes v = some bytes) :
    emittedOf tags (fd :: rest) = (fd.smsgTag, bytes) :: emittedOf tags rest := by
  rw [emittedOf_cons_some tags fd rest v hv, hb]

theorem emittedOf_append (tags : TagMap) (xs ys : List fieldData) :
    emittedOf tags (xs ++ ys) = emittedOf tags xs ++ emittedOf tags ys := by
  induction xs with
  | nil => rfl
  | cons fd rest ih =>
    cases hv : fieldValue tags fd with
    | none =>
      rw [List.cons_append, emittedOf_cons_none tags fd (rest ++ ys) hv,
        emittedOf_cons_none tags fd rest hv, ih]
    | some v =>
      cases hb : encBytes v with
      | none =>
        rw [List.cons_append, emittedOf_cons_skip tags fd (rest ++ ys) v hv hb,
          emittedOf_cons_skip tags fd rest v hv hb, ih]
      | some bytes =>
        rw [List.cons_append, emittedOf_cons_bytes tags fd (rest ++ ys) v bytes hv hb,
          emittedOf_cons_bytes tags fd rest v bytes hv hb, ih, List.cons_append]

/-- Every emitted pair comes from a plan field with a defined, non-nil
value, and carries that field's wire tag and bytes. -/
theorem emittedOf_mem (tags : TagMap) :
    ∀ (fds : List fieldData) (p : Nat × List Nat), p ∈ emittedOf tags fds →
      ∃ fd ∈ fds, ∃ v, p.1 = fd.smsgTag ∧ fieldValue tags fd = some v ∧
        encBytes v = some p.2 := by
  intro fds
  induction fds with
  | nil =>
    intro p hp
    simp [emittedOf] at hp
  | cons fd rest ih =>
    intro p hp
    cases hv : fieldValue tags fd with
    | none =>
      rw [emittedOf_cons_none tags fd rest hv] at hp
      obtain ⟨g, hg, w, h1, h2, h3⟩ := ih p hp
      exact ⟨g, List.mem_cons_of_mem fd hg, w, h1, h2, h3⟩
    | some v =>
      cases hb : encBytes v with
      | none =>
        rw [emittedOf_cons_skip tags fd rest v hv hb] at hp
        obtain ⟨g, hg, w, h1, h2, h3⟩ := ih p hp
        exact ⟨g, List.mem_cons_of_mem fd hg, w, h1, h2, h3⟩
      | some bytes =>
        rw [emittedOf_cons_bytes tags fd rest v bytes hv hb] at hp
        rcases List.mem_cons.mp hp with hph | hpt
        · subst hph
          exact ⟨fd, List.mem_cons_self fd rest, v, rfl, hv, by rw [hb]⟩
        · obtain ⟨g, hg, w, h1, h2, h3⟩ := ih p hpt
          exact ⟨g, List.mem_cons_of_mem fd hg, w, h1, h2, h3⟩

/-- The encoder field loop over a plan whose per-field values are all
defined: no error is possible, and the output appends exactly the encoding
of the emitted pairs. -/
theorem encodeFields_emitted (tags : TagMap) (msgFields : Fields) :
    ∀ (fs : List Field) (fds : List fieldData),
      List.Forall₂ (fun f fd => newFieldData f = .ok fd) fs fds →
      (∀ fd ∈ fds, mapFind msgFields fd.name = fieldValue tags fd) →
      (∀ fd ∈ fds, fieldValue tags fd ≠ none) →
      ∀ inner, encodeFields msgFields fs inner =
        .ok (inner ++ addTagsBytes (emittedOf tags fds)) := by
  intro fs fds hm
  induction hm with
  | nil =>
    intro _ _ inner
    show Except.ok inner = .ok (inner ++ addTagsBytes (emittedOf tags []))
    rw [show emittedOf tags [] = [] from rfl,
      show addTagsBytes [] = [] from rfl, List.append_nil]
  | @cons f fd fs' fds' hfd hrest ih =>
    intro hlook hsome inner
    obtain ⟨htag, hnul, hstr, hname, htyp, hrec, henv⟩ := newFieldData_inv f fd hfd
    cases hv : fieldValue tags fd with
    | none => exact absurd hv (hsome fd (List.mem_cons_self fd fds'))
    | some v =>
      have hlf : mapFind msgFields f.Name = some v := by
        rw [← hname, hlook fd (List.mem_cons_self fd fds'), hv]
      have hlook' : ∀ g ∈ fds', mapFind msgFields g.name = fieldValue tags g :=
        fun g hg => hlook g (List.mem_cons_of_mem fd hg)
      have hsome' : ∀ g ∈ fds', fieldValue tags g ≠ none :=
        fun g hg => hsome g (List.mem_cons_of_mem fd hg)
      by_cases hnn : v = .nullV
      · subst hnn
        have hn := fieldValue_null_nullable tags fd hv
        have hfn : f.Nullable = true := by
          rw [← hnul]
          exact hn
        have hemit : emittedOf tags (fd :: fds') = emittedOf tags fds' :=
          emittedOf_cons_skip tags fd fds' Value.nullV hv rfl
        rw [encodeFields_cons_null msgFields f fs' inner hlf, if_pos hfn, hemit]
        exact ih hlook' hsome' inner
      · rcases fieldValue_some_not_null_found tags fd v hv hnn with
          ⟨raw, hfind, hrawne, hac⟩ | ⟨raw, hfind, hlen0, hvstr, hs⟩
        · obtain ⟨bytes, hbytes⟩ : ∃ bytes, encBytes v = some bytes := by
            cases v
            case nullV => exact absurd rfl hnn
            all_goals exact ⟨_, rfl⟩
          have henc2 : encodeValue f v = .ok (some bytes) := by
            rw [encodeValue_of_coerce f fd raw v hfd hac, hbytes]
          have hstep : encodeFields msgFields (f :: fs') inner =
              encodeFields msgFields fs' (inner ++ Add fd.smsgTag bytes) := by
            rw [encodeFields_cons_val msgFields f fs' inner v hlf hnn, henc2, htag]
          have hemit : emittedOf tags (fd :: fds') =
              (fd.smsgTag, bytes) :: emittedOf tags fds' :=
            emittedOf_cons_bytes tags fd fds' v bytes hv hbytes
          rw [hstep, ih hlook' hsome' (inner ++ Add fd.smsgTag bytes), hemit]
          show Except.ok ((inner ++ Add fd.smsgTag bytes) ++
              addTagsBytes (emittedOf tags fds')) =
            Except.ok (inner ++ (Add fd.smsgTag bytes ++
              addTagsBytes (emittedOf tags fds')))
          rw [List.append_assoc]
        · subst hvstr
          have hT : f.Typ = .StringType := by
            have := hstr.symm.trans hs
            exact of_decide_eq_true this
          have henc2 : encodeValue f (Value.stringV []) = .ok (some []) :=
            encodeValue_empty_string f hT
          have hstep : encodeFields msgFields (f :: fs') inner =
              encodeFields msgFields fs' (inner ++ Add fd.smsgTag []) := by
            rw [encodeFields_cons_val msgFields f fs' inner _ hlf hnn, henc2, htag]
          have hemit : emittedOf tags (fd :: fds') =
              (fd.smsgTag, []) :: emittedOf tags fds' :=
            emittedOf_cons_bytes tags fd fds' (Value.stringV []) [] hv rfl
          rw [hstep, ih hlook' hsome' (inner ++ Add fd.smsgTag []), hemit]
          show Except.ok ((inner ++ Add fd.smsgTag []) ++
              addTagsBytes (emittedOf tags fds')) =
            Except.ok (inner ++ (Add fd.smsgTag [] ++
              addTagsBytes (emittedOf tags fds')))
          rw [List.append_assoc]

/-! ## Lemmas: the scratch map of the re-encoded frame -/

/-- The scratch map `Decode`'s scan builds from an encoded pair sequence
(each key masked to its wire id, last duplicate winning), as
`collectTags_encoded` produces it. -/
def wiremap (em : List (Nat × List Nat)) : TagMap :=
  em.foldl (fun m p => mapAssign m (p.1 % 32768) p.2) []

/-- Lookup of a plan field's tag in the re-encoded frame's scratch map, when
the field's value was emitted: its own bytes (pairwise distinct masked tags
make every other emitted key differ). -/
theorem wiremap_lookup_some (tags : TagMap) (fds : List fieldData)
    (hdist : fds.Pairwise (fun a b => a.smsgTag % 32768 ≠ b.smsgTag % 32768))
    (fd : fieldData) (hmem : fd ∈ fds) (v : Value) (bytes : List Nat)
    (hv : fieldValue tags fd = some v) (hb : encBytes v = some bytes)
    (hlt : fd.smsgTag < 32768) :
    mapFind (wiremap (emittedOf tags fds)) fd.smsgTag = some bytes := by
  obtain ⟨pre, post, rfl⟩ := List.append_of_mem hmem
  have hpost : ∀ g ∈ post, fd.smsgTag % 32768 ≠ g.smsgTag % 32768 :=
    (List.pairwise_cons.mp (List.pairwise_append.mp hdist).2.1).1
  have hkey : fd.smsgTag % 32768 = fd.smsgTag := Nat.mod_eq_of_lt hlt
  have hemitpost : ∀ p ∈ emittedOf tags post, p.1 % 32768 ≠ fd.smsgTag := by
    intro p hp
    obtain ⟨g, hg, w, h1, _, _⟩ := emittedOf_mem tags post p hp
    rw [h1, ← hkey]
    exact (hpost g hg).symm
  have hsplit : emittedOf tags (pre ++ fd :: post) =
      emittedOf tags pre ++ ((fd.smsgTag, bytes) :: emittedOf tags post) := by
    rw [emittedOf_append]
    congr 1
    exact emittedOf_cons_bytes tags fd post v bytes hv hb
  rw [hsplit]
  show mapFind ((emittedOf tags pre ++ (fd.smsgTag, bytes) :: emittedOf tags post).foldl
      (fun m p => mapAssign m (p.1 % 32768) p.2) []) fd.smsgTag = some bytes
  rw [List.foldl_append, List.foldl_cons,
    mapFind_foldl_assign_of_ne (fun p : Nat × List Nat => p.1 % 32768)
      (fun p : Nat × List Nat => p.2) fd.smsgTag (emittedOf tags post) hemitpost]
  rw [show (fd.smsgTag, bytes).1 % 32768 = fd.smsgTag from hkey]
  exact mapFind_mapAssign_self _ _ _

/-- Lookup of a tag in the re-encoded frame's scratch map when no emitted
field can collide with it: absent. -/
theorem wiremap_lookup_none (tags : TagMap) (fds : List fieldData)
    (fd : fieldData)
    (hnone : ∀ g ∈ fds, ∀ w bytes, fieldValue tags g = some w →
        encBytes w = some bytes → g.smsgTag % 32768 ≠ fd.smsgTag) :
    mapFind (wiremap (emittedOf tags fds)) fd.smsgTag = none := by
  have hne : ∀ p ∈ emittedOf tags fds, p.1 % 32768 ≠ fd.smsgTag := by
    intro p hp
    obtain ⟨g, hg, w, h1, h2, h3⟩ := emittedOf_mem tags fds p hp
    rw [h1]
    exact hnone g hg w p.2 h2 h3
  show mapFind ((emittedOf tags fds).foldl
      (fun m p => mapAssign m (p.1 % 32768) p.2) []) fd.smsgTag = none
  rw [mapFind_foldl_assign_of_ne (fun p : Nat × List Nat => p.1 % 32768)
    (fun p : Nat × List Nat => p.2) fd.smsgTag (emittedOf tags fds) hne]
  rfl

/-- The per-field round trip: against the re-encoded frame's scratch map,
every plan field's value is the value of the original decode.  Uses the
pairwise distinctness of the masked wire tags and the key facts of the
original scratch map. -/
theorem fieldValue_wiremap (tags : TagMap) (fds : List fieldData)
    (hdist : fds.Pairwise (fun a b => a.smsgTag % 32768 ≠ b.smsgTag % 32768))
    (hkeys : ∀ g ∈ fds, ∀ raw, mapFind tags g.smsgTag = some raw →
        g.smsgTag ≠ 0 ∧ g.smsgTag < 32768)
    (fd : fieldData) (hmem : fd ∈ fds) (v : Value)
    (hv : fieldValue tags fd = some v) :
    fieldValue (wiremap (emittedOf tags fds)) fd = some v := by
  by_cases hnn : v = .nullV
  · subst hnn
    have hnul := fieldValue_null_nullable tags fd hv
    have hfind : mapFind (wiremap (emittedOf tags fds)) fd.smsgTag = none := by
      apply wiremap_lookup_none
      by_cases hlt : fd.smsgTag < 32768
      · obtain ⟨pre, post, rfl⟩ := List.append_of_mem hmem
        have hP := List.pairwise_append.mp hdist
        have hpre : ∀ g ∈ pre, g.smsgTag % 32768 ≠ fd.smsgTag % 32768 :=
          fun g hg => hP.2.2 g hg fd (List.mem_cons_self fd post)
        have hpost : ∀ g ∈ post, fd.smsgTag % 32768 ≠ g.smsgTag % 32768 :=
          (List.pairwise_cons.mp hP.2.1).1
        intro g hg w bytes hw hbw
        rcases List.mem_append.mp hg with hgpre | hgmid
        · rw [← Nat.mod_eq_of_lt hlt]
          exact hpre g hgpre
        · rcases List.mem_cons.mp hgmid with hgfd | hgpost
          · subst hgfd
            rw [hv] at hw
            have hw' : Value.nullV = w := by injection hw
            rw [← hw'] at hbw
            exact absurd hbw (by simp [encBytes])
          · rw [← Nat.mod_eq_of_lt hlt]
            exact (hpost g hgpost).symm
      · intro g hg w bytes hw hbw
        have := Nat.mod_lt g.smsgTag (show 0 < 32768 by norm_num)
        omega
    rw [fieldValue_absent _ fd hfind, if_pos hnul]
  · rcases fieldValue_some_not_null_found tags fd v hv hnn with
      ⟨raw, hfind1, hrawne, hac⟩ | ⟨raw, hfind1, hlen0, hvstr, hs⟩
    · obtain ⟨bytes, hb⟩ : ∃ bytes, encBytes v = some bytes := by
        cases v
        case nullV => exact absurd rfl hnn
        all_goals exact ⟨_, rfl⟩
      obtain ⟨hne0, hlt⟩ := hkeys fd hmem raw hfind1
      have hfind2 := wiremap_lookup_some tags fds hdist fd hmem v bytes hv hb hlt
      have hbne := encBytes_coerced_ne_nil fd.ftype fd.enumValues raw v bytes
        hrawne hac hb
      have hre := applyCoerce_encBytes fd.ftype fd.enumValues raw v bytes hac hb
      rw [fieldValue_found _ fd bytes hfind2,
        if_neg (fun h0 => hbne (List.length_eq_zero.mp h0)), hre]
    · subst hvstr
      obtain ⟨hne0, hlt⟩ := hkeys fd hmem raw hfind1
      have hfind2 := wiremap_lookup_some tags fds hdist fd hmem _ [] hv rfl hlt
      rw [fieldValue_found _ fd [] hfind2,
        if_pos (show ([] : List Nat).length = 0 from rfl), if_pos hs]

/-! ## C2: the decode–encode–decode round trip -/

/-- `Decode` after a successful outer-tag parse. -/
theorem Decode_step (sd : SchemaDecoder) (r : List Nat) (t : Tag) (rest : List Nat)
    (h : NextTag r = .ok (t, rest)) :
    Decode sd r =
      (match collectTags t.Data.length t.Data [] with
      | .error e => (none, some (.iterErr e))
      | .ok tags => coerce sd t.Tag tags) := by
  unfold Decode
  rw [h]

/-- C2 (amended): for a schema whose fields have pairwise distinct names and
pairwise distinct masked (15-bit) wire tags, and a frame below the int32
length limit that a decoder built from that schema decodes without error,
encoding the decoded message with an encoder built from the same schema
succeeds, and decoding the encoder's output yields the same `DecodedMessage`
— same record type name, record tag, and field map, nullable-omitted fields
staying nil on both sides. -/
theorem C2_decode_encode_roundtrip (s : Schema) (sd : SchemaDecoder)
    (se : SchemaEncoder) (r : List Nat) (msg : DecodedMessage)
    (hsd : NewSchemaDecoder [s] = .ok sd)
    (hse : NewSchemaEncoder [s] = .ok se)
    (hdisj : s.Fields.Pairwise (fun f g =>
        (extractSmsgTag f).toOption.map (fun t => t % 32768) ≠
          (extractSmsgTag g).toOption.map (fun t => t % 32768) ∧
        f.Name ≠ g.Name))
    (hr : r.length < 2 ^ 31)
    (hdec : Decode sd r = (some msg, none)) :
    ∃ frame2, Encode se msg = .ok frame2 ∧
      Decode sd frame2 = (some msg, none) := by
  obtain ⟨sc, hnsc, hcoercers⟩ := NewSchemaDecoder_single s sd hsd
  obtain ⟨hrt_tag, hrt_name, hbfd⟩ := newSchemaCoercion_inv s sc hnsc
  obtain ⟨rt, rrest, tags, sc2, hnt, hct, hscfind, hcf, hmsgty, hmsgtag⟩ :=
    Decode_ok_inv sd r msg hdec
  rw [hcoercers] at hscfind
  obtain ⟨htagEq, hscEq⟩ := mapFind_singleton_inv sc.recordTypeTag rt.Tag sc sc2 hscfind
  subst hscEq
  have hf2 := buildFieldData_forall2 s.Fields sc2.fields hbfd
  have hrtlt := NextTag_ok_tag_lt r rt rrest hnt
  obtain ⟨k0, hk04, hk0le, _, hk0sum⟩ := NextTag_ok_tail r rt rrest hnt
  have hscope : rt.Data.length ≤ r.length := by omega
  have htags_fact : ∀ k raw, mapFind tags k = some raw →
      k ≠ 0 ∧ k < 32768 ∧ raw.length ≤ r.length := by
    intro k raw hfind
    rcases collectTags_find rt.Data.length rt.Data [] tags hct k raw hfind with
      habs | ⟨h1, h2, h3⟩
    · exact Option.noConfusion habs
    · exact ⟨h1, h2, le_trans h3 hscope⟩
  have hdistfds : sc2.fields.Pairwise
      (fun a b => a.smsgTag % 32768 ≠ b.smsgTag % 32768 ∧ a.name ≠ b.name) := by
    refine pairwise_of_forall2 _ _ _ ?_ s.Fields sc2.fields hf2 hdisj
    intro f fd g gd hffd hggd hP
    obtain ⟨hta, _, _, hna, _, _, _⟩ := newFieldData_inv f fd hffd
    obtain ⟨htb, _, _, hnb, _, _, _⟩ := newFieldData_inv g gd hggd
    constructor
    · intro hEq
      apply hP.1
      rw [hta, htb]
      show some (fd.smsgTag % 32768) = some (gd.smsgTag % 32768)
      rw [hEq]
    · intro hEq
      apply hP.2
      rw [← hna, ← hnb]
      exact hEq
  have hdist1 : sc2.fields.Pairwise
      (fun a b => a.smsgTag % 32768 ≠ b.smsgTag % 32768) :=
    hdistfds.imp (fun h => h.1)
  have hdist2 : sc2.fields.Pairwise (fun a b => a.name ≠ b.name) :=
    hdistfds.imp (fun h => h.2)
  obtain ⟨hsome, hout⟩ := coerceFields_success tags sc2.fields [] msg.Fields hcf
  have hlook : ∀ fd ∈ sc2.fields, mapFind msg.Fields fd.name = fieldValue tags fd := by
    intro fd hmem
    rw [coerceFields_lookup tags sc2.fields [] msg.Fields hcf hdist2 fd hmem]
    cases hv : fieldValue tags fd with
    | none => exact absurd hv (hsome fd hmem)
    | some v => rfl
  have hkeys : ∀ g ∈ sc2.fields, ∀ raw, mapFind tags g.smsgTag = some raw →
      g.smsgTag ≠ 0 ∧ g.smsgTag < 32768 := by
    intro g _ raw hfind
    obtain ⟨h1, h2, _⟩ := htags_fact g.smsgTag raw hfind
    exact ⟨h1, h2⟩
  have hselook : se.schemas = [(s.RecordType.Name, s)] :=
    NewSchemaEncoder_single s se sc2.recordTypeTag hrt_tag hse
  have hmsgfind : mapFind se.schemas msg.RecordType = some s := by
    rw [hselook, hmsgty, hrt_name]
    show (if s.RecordType.Name = s.RecordType.Name then some s
      else mapFind [] s.RecordType.Name) = some s
    rw [if_pos rfl]
  have hrtag_eq : sc2.recordTypeTag = msg.RecordTag := by
    rw [hmsgtag, htagEq]
  have henceq := encodeFields_emitted tags msg.Fields s.Fields sc2.fields hf2
    hlook hsome []
  have hencode : Encode se msg = .ok (AddVariableTag msg.RecordTag ++
      addTagsBytes (emittedOf tags sc2.fields) ++ Terminate) := by
    rw [Encode_eq_tagged se msg s sc2.recordTypeTag hmsgfind hrt_tag,
      if_neg (show ¬(sc2.recordTypeTag ≠ msg.RecordTag) from fun h => h hrtag_eq),
      henceq]
    show Except.ok (AddVariableTag msg.RecordTag ++
        ([] ++ addTagsBytes (emittedOf tags sc2.fields)) ++ Terminate) = _
    rw [List.nil_append]
  refine ⟨_, hencode, ?_⟩
  have hem_facts : ∀ p ∈ emittedOf tags sc2.fields,
      p.1 % 32768 ≠ 0 ∧ p.2.length < 2 ^ 31 := by
    intro p hp
    obtain ⟨g, hg, w, hp1, hw, hbw⟩ := emittedOf_mem tags sc2.fields p hp
    have hwnn : w ≠ .nullV := by
      intro hwn
      rw [hwn] at hbw
      exact Option.noConfusion hbw
    rcases fieldValue_some_not_null_found tags g w hw hwnn with
      ⟨raw, hfind, hrawne, hac⟩ | ⟨raw, hfind, hlen0, hwstr, _⟩
    · obtain ⟨h1, h2, h3⟩ := htags_fact g.smsgTag raw hfind
      refine ⟨?_, ?_⟩
      · rw [hp1, Nat.mod_eq_of_lt h2]
        exact h1
      · have hle := encBytes_length_le g.ftype g.enumValues raw w p.2 hac hbw
        omega
    · subst hwstr
      have hbw' : some ([] : List Nat) = some p.2 := hbw
      injection hbw' with hbw'
      obtain ⟨h1, h2, _⟩ := htags_fact g.smsgTag raw hfind
      refine ⟨?_, ?_⟩
      · rw [hp1, Nat.mod_eq_of_lt h2]
        exact h1
      · rw [← hbw']
        norm_num
  have hframe : AddVariableTag msg.RecordTag ++
      addTagsBytes (emittedOf tags sc2.fields) ++ Terminate =
      AddVariableTag msg.RecordTag ++ (addTagsBytes (emittedOf tags sc2.fields) ++
        (Add 0 [] ++ [10])) := by
    rw [List.append_assoc, show Terminate = Add 0 [] ++ [10] from rfl]
  have hnt2 := NextTag_AddVariableTag msg.RecordTag
    (addTagsBytes (emittedOf tags sc2.fields) ++ (Add 0 [] ++ [10]))
  have hmsgtag_lt : msg.RecordTag < 32768 := by
    rw [hmsgtag]
    exact hrtlt
  have hmod : msg.RecordTag % 32768 = msg.RecordTag := Nat.mod_eq_of_lt hmsgtag_lt
  have hfuel : (emittedOf tags sc2.fields).length + 1 ≤
      (addTagsBytes (emittedOf tags sc2.fields) ++ (Add 0 [] ++ [10])).length := by
    have h1 := addTagsBytes_length_ge (emittedOf tags sc2.fields)
    have h6 : (Add 0 ([] : List Nat)).length = 6 := rfl
    simp only [List.length_append, h6, List.length_cons, List.length_nil]
    omega
  have hct2 : collectTags
      (addTagsBytes (emittedOf tags sc2.fields) ++ (Add 0 [] ++ [10])).length
      (addTagsBytes (emittedOf tags sc2.fields) ++ (Add 0 [] ++ [10])) [] =
      .ok (wiremap (emittedOf tags sc2.fields)) :=
    collectTags_encoded (emittedOf tags sc2.fields) _ [10] [] hem_facts hfuel
  have heq2 : ∀ fd ∈ sc2.fields,
      fieldValue (wiremap (emittedOf tags sc2.fields)) fd = fieldValue tags fd := by
    intro fd hmem
    cases hv : fieldValue tags fd with
    | none => exact absurd hv (hsome fd hmem)
    | some v => exact fieldValue_wiremap tags sc2.fields hdist1 hkeys fd hmem v hv
  have hcf2 : coerceFields (wiremap (emittedOf tags sc2.fields)) sc2.fields [] =
      (msg.Fields, none) := by
    rw [coerceFields_congr tags (wiremap (emittedOf tags sc2.fields)) sc2.fields []
      heq2 hsome]
    exact hcf
  have hfind2 : mapFind sd.coercers msg.RecordTag = some sc2 := by
    rw [hcoercers, hmsgtag, htagEq]
    show (if sc2.recordTypeTag = sc2.recordTypeTag then some sc2
      else mapFind [] sc2.recordTypeTag) = some sc2
    rw [if_pos rfl]
  have t1 : coerce sd (msg.RecordTag % 32768)
      (wiremap (emittedOf tags sc2.fields)) = (some msg, none) := by
    rw [hmod, coerce_found sd msg.RecordTag (wiremap (emittedOf tags sc2.fields))
      sc2 hfind2, hcf2, ← hmsgty]
  have t2 : (match collectTags
      (addTagsBytes (emittedOf tags sc2.fields) ++ (Add 0 [] ++ [10])).length
      (addTagsBytes (emittedOf tags sc2.fields) ++ (Add 0 [] ++ [10])) [] with
    | .error e => ((none : Option DecodedMessage), some (SerdeErr.iterErr e))
    | .ok tags2 => coerce sd (msg.RecordTag % 32768) tags2) = (some msg, none) := by
    rw [hct2]
    exact t1
  rw [hframe, Decode_step sd _ _ [] hnt2]
  exact t2

/-- The sip coercion plan, as `newSchemaCoercion` builds it from the sip
schema. -/
def sipCoercion : schemaCoercion :=
  { recordTypeName := "sip", recordTypeTag := 4121, fields := [startTsFD, anrFD] }

/-- The decoder `NewSchemaDecoder` builds from the sip schema. -/
def sipDecoder : SchemaDecoder := { coercers := [(4121, sipCoercion)] }

/-- The encoder `NewSchemaEncoder` builds from the sip schema. -/
def sipEncoder : SchemaEncoder := { schemas := [("sip", sipSchema)] }

/-- A sip frame holding `start_ts = "123"` and `anr = "abc"`. -/
def sipFrame : List Nat :=
  AddVariableTag 4121 ++
    addTagsBytes [(4128, [49, 50, 51]), (4147, [97, 98, 99])] ++ Terminate

/-- The decode of `sipFrame` against the sip schema. -/
def sipMsg : DecodedMessage :=
  { RecordType := "sip", RecordTag := 4121,
    Fields := [("start_ts", .intV 64 123), ("anr", .stringV [97, 98, 99])] }

/-- C2 witness: the amended round trip at the sip schema (distinct names
and wire tags) and a concrete frame holding both fields. -/
theorem C2_decode_encode_roundtrip_witness :
    ∃ frame2, Encode sipEncoder sipMsg = .ok frame2 ∧
      Decode sipDecoder frame2 = (some sipMsg, none) :=
  C2_decode_encode_roundtrip sipSchema sipDecoder sipEncoder sipFrame sipMsg
    rfl rfl (by decide) (by decide) rfl

/-- The field `y`, a nullable string with wire tag 5. -/
def dupYField : Field :=
  { Name := "y", Typ := .StringType, Nullable := true,
    Metadata := { smsg_tag := some 5, enum_values := [] } }

/-- The field `x`, a nullable int64 sharing wire tag 5 with `y`. -/
def dupXField : Field :=
  { Name := "x", Typ := .Int64Type, Nullable := true,
    Metadata := { smsg_tag := some 5, enum_values := [] } }

/-- The record-type descriptor of the duplicate-tag schema. -/
def dupRecordField : Field :=
  { Name := "dup", Typ := .RecordType, Nullable := false,
    Metadata := { smsg_tag := some 4096, enum_values := [] } }

/-- A schema whose two fields share wire tag 5.  Its field names are
distinct, so nothing in schema loading or decoder construction rejects
it — no validation checks tag uniqueness. -/
def dupSchema : Schema :=
  { RecordType := dupRecordField, Fields := [dupYField, dupXField] }

/-- The conversion data of `y`. -/
def dupYFD : fieldData :=
  { isNullable := true, isString := true, smsgTag := 5, name := "y",
    enumValues := [], ftype := .StringType }

/-- The conversion data of `x`. -/
def dupXFD : fieldData :=
  { isNullable := true, isString := false, smsgTag := 5, name := "x",
    enumValues := [], ftype := .Int64Type }

/-- The coercion plan of the duplicate-tag schema. -/
def dupCoercion : schemaCoercion :=
  { recordTypeName := "dup", recordTypeTag := 4096, fields := [dupYFD, dupXFD] }

/-- The decoder built from the duplicate-tag schema. -/
def dupDecoder : SchemaDecoder := { coercers := [(4096, dupCoercion)] }

/-- The encoder built from the duplicate-tag schema. -/
def dupEncoder : SchemaEncoder := { schemas := [("dup", dupSchema)] }

/-- The first decode: both fields read the wire value `"007"` at tag 5. -/
def dupMsg1 : DecodedMessage :=
  { RecordType := "dup", RecordTag := 4096,
    Fields := [("y", .stringV [48, 48, 55]), ("x", .intV 64 7)] }

/-- The second decode: the re-encoded frame carries tag 5 twice (`"007"`
for `y`, then `"7"` for `x`), the scan keeps the last value, and `y` reads
back `"7"`. -/
def dupMsg2 : DecodedMessage :=
  { RecordType := "dup", RecordTag := 4096,
    Fields := [("y", .stringV [55]), ("x", .intV 64 7)] }

/-- C2 counterexample: a registered schema whose fields share a wire tag
breaks the round trip.  Both construction calls accept `dupSchema`; the
frame with value `"007"` at tag 5 decodes without error to `y = "007"`,
`x = 7`; the encoder writes tag 5 twice (`"007"` then `"7"`); decoding the
encoder's output succeeds but binds `y = "7"` — a different message. -/
theorem C2_duplicate_tag_counterexample :
    NewSchemaDecoder [dupSchema] = .ok dupDecoder ∧
    NewSchemaEncoder [dupSchema] = .ok dupEncoder ∧
    Decode dupDecoder
        (AddVariableTag 4096 ++ addTagsBytes [(5, [48, 48, 55])] ++ Terminate) =
      (some dupMsg1, none) ∧
    Encode dupEncoder dupMsg1 =
      .ok (AddVariableTag 4096 ++
        addTagsBytes [(5, [48, 48, 55]), (5, [55])] ++ Terminate) ∧
    Decode dupDecoder (AddVariableTag 4096 ++
        addTagsBytes [(5, [48, 48, 55]), (5, [55])] ++ Terminate) =
      (some dupMsg2, none) ∧
    dupMsg1 ≠ dupMsg2 :=
  ⟨rfl, rfl, rfl, rfl, rfl, by decide⟩

end GoSMsg
